import Mathlib

/-!
# EdgeDelayDSPKernel: a shallow embedding

The C++ class `EdgeDelayDSPKernel` (file `EdgeDelayAU/EdgeDelayDSPKernel.hpp`) is
embedded as pure functions on an explicit `State` record.

Conventions of the embedding.

* `float` / `double` values are exact rationals (`ℚ`): sample arithmetic is taken as
  exact, rounding and NaN are outside the model.
* `std::vector<T>` is `List T`; `v[i]` is a bounds-checked access, and an access outside
  the vector (undefined behaviour in C++) makes the operation return `none`.
* The cast `(int)x` truncates toward zero; a value outside the 32-bit `int` range
  (undefined behaviour in C++) makes the operation return `none`.
* `int` cursors (`writePos`, `combPos*[i]`, `allpassPos*[i]`) are only ever assigned `0`
  or the result of `% size()`, so they are natural numbers; the arithmetic on the read
  position, which can go negative, is done in `ℤ`.
* `AUParameterAddress` is an unsigned integer, so addresses are natural numbers.
* `maxDelayTime` is set to `2.0` by the constructor and never assigned again; it is the
  constant `maxDelayTime`.
-/

namespace EdgeDelay

/-! ## Data model -/

/-- Member variables of `EdgeDelayDSPKernel`, in the order of the class declaration. -/
structure State where
  delayTime : ℚ
  delayFeedback : ℚ
  delayMix : ℚ
  reverbSize : ℚ
  reverbMix : ℚ
  shimmerAmount : ℚ
  shimmerPitch : ℚ
  dryWet : ℚ
  channels : Int
  sampleRate : ℚ
  delayBufferL : List ℚ
  delayBufferR : List ℚ
  writePos : Nat
  combBuffersL : List (List ℚ)
  combBuffersR : List (List ℚ)
  combPosL : List Nat
  combPosR : List Nat
  allpassBuffersL : List (List ℚ)
  allpassBuffersR : List (List ℚ)
  allpassPosL : List Nat
  allpassPosR : List Nat
deriving DecidableEq

/-- Member `maxDelayTime`, fixed to `2.0` seconds by the constructor. -/
def maxDelayTime : ℚ := 2

/-- Truncation toward zero of a rational, the value of a C++ float-to-int cast. -/
def trunc (x : ℚ) : Int := Int.tdiv x.num (x.den : Int)

/-- The cast `(int)x`: truncation toward zero, undefined outside the `int` range. -/
def toInt (x : ℚ) : Option Int :=
  if -(2 : Int) ^ 31 ≤ trunc x ∧ trunc x < (2 : Int) ^ 31 then some (trunc x) else none

/-- The call `std::vector::resize(n, v)` on a list: keeps the first `n` elements that exist and
appends copies of `v` up to length `n`. Existing elements are not overwritten. -/
def resize {α : Type} (l : List α) (n : Nat) (v : α) : List α :=
  l.take n ++ List.replicate (n - l.length) v

/-- The call `v.resize(n, fill)` with an `int` argument `n`: a negative `n` converts to a huge
`size_t` and the call throws, which is `none` here. -/
def resizeInt {α : Type} (l : List α) (n : Int) (v : α) : Option (List α) :=
  if 0 ≤ n then some (resize l n.toNat v) else none

/-- The access `buf[i]` for an `int` index: `none` outside `[0, size)`. -/
def getAt (l : List ℚ) (i : Int) : Option ℚ :=
  if 0 ≤ i then l[i.toNat]? else none

/-! ## initializeReverb -/

/-- The local `combDelays` of `initializeReverb`. -/
def combDelays : List Int := [1557, 1617, 1491, 1422, 1277, 1356, 1188, 1116]

/-- The local `allpassDelays` of `initializeReverb`. -/
def allpassDelays : List Int := [225, 556, 441, 341]

/-- One of the two `for` loops of `initializeReverb`, run over the design delays and the
inner buffers in parallel: buffer `i` is resized to
`(int)(delays[i] * sampleRate / 44100.0) + extra`, where `extra` is `0` for the left
channel and `23` for the right one. The outer vector has already been resized to the
number of design delays, so both lists have the same length. -/
def resizeFilters (sampleRate : ℚ) (extra : Int) :
    List Int → List (List ℚ) → Option (List (List ℚ))
  | [], bufs => some bufs
  | _ :: _, [] => none
  | c :: cs, buf :: bufs =>
    match toInt ((c : ℚ) * sampleRate / 44100) with
    | none => none
    | some delaySamples =>
      match resizeInt buf (delaySamples + extra) 0 with
      | none => none
      | some buf' =>
        match resizeFilters sampleRate extra cs bufs with
        | none => none
        | some bufs' => some (buf' :: bufs')

/-- Method `initializeReverb`. -/
def initializeReverb (s : State) : Option State :=
  match resizeFilters s.sampleRate 0 combDelays (resize s.combBuffersL combDelays.length []),
        resizeFilters s.sampleRate 23 combDelays (resize s.combBuffersR combDelays.length []),
        resizeFilters s.sampleRate 0 allpassDelays
          (resize s.allpassBuffersL allpassDelays.length []),
        resizeFilters s.sampleRate 23 allpassDelays
          (resize s.allpassBuffersR allpassDelays.length []) with
  | some cL, some cR, some aL, some aR =>
    some { s with
      combBuffersL := cL
      combBuffersR := cR
      combPosL := resize s.combPosL combDelays.length 0
      combPosR := resize s.combPosR combDelays.length 0
      allpassBuffersL := aL
      allpassBuffersR := aR
      allpassPosL := resize s.allpassPosL allpassDelays.length 0
      allpassPosR := resize s.allpassPosR allpassDelays.length 0 }
  | _, _, _, _ => none

/-! ## initialize, reset, parameters -/

/-- Method `initialize(channelCount, inSampleRate)`; the name `initialize` is reserved in
Lean, hence `initializeKernel`. -/
def initializeKernel (s : State) (channelCount : Int) (inSampleRate : ℚ) : Option State :=
  match toInt (maxDelayTime * inSampleRate) with
  | none => none
  | some maxDelaySamples =>
    match resizeInt s.delayBufferL maxDelaySamples 0,
          resizeInt s.delayBufferR maxDelaySamples 0 with
    | some dL, some dR =>
      match initializeReverb { s with
          channels := channelCount
          sampleRate := inSampleRate
          delayBufferL := dL
          delayBufferR := dR } with
      | none => none
      | some s' => some { s' with writePos := 0 }
    | _, _ => none

/-- The `std::fill(buf.begin(), buf.end(), 0)` of `reset`: same length, all zero. -/
def zeroFill {α : Type} [Zero α] (l : List α) : List α := l.map (fun _ => 0)

/-- Method `reset()`. -/
def reset (s : State) : State :=
  { s with
    delayBufferL := zeroFill s.delayBufferL
    delayBufferR := zeroFill s.delayBufferR
    writePos := 0
    combBuffersL := s.combBuffersL.map zeroFill
    combBuffersR := s.combBuffersR.map zeroFill
    allpassBuffersL := s.allpassBuffersL.map zeroFill
    allpassBuffersR := s.allpassBuffersR.map zeroFill
    combPosL := zeroFill s.combPosL
    combPosR := zeroFill s.combPosR
    allpassPosL := zeroFill s.allpassPosL
    allpassPosR := zeroFill s.allpassPosR }

/-- Method `setParameter(address, value)`. -/
def setParameter (s : State) (address : Nat) (value : ℚ) : State :=
  match address with
  | 0 => { s with delayTime := value }
  | 1 => { s with delayFeedback := value }
  | 2 => { s with delayMix := value }
  | 3 => { s with reverbSize := value }
  | 4 => { s with reverbMix := value }
  | 5 => { s with shimmerAmount := value }
  | 6 => { s with shimmerPitch := value }
  | 7 => { s with dryWet := value }
  | _ => s

/-- Method `getParameter(address)`. -/
def getParameter (s : State) (address : Nat) : ℚ :=
  match address with
  | 0 => s.delayTime
  | 1 => s.delayFeedback
  | 2 => s.delayMix
  | 3 => s.reverbSize
  | 4 => s.reverbMix
  | 5 => s.shimmerAmount
  | 6 => s.shimmerPitch
  | 7 => s.dryWet
  | _ => 0

/-- The members as they stand when the constructor body starts: the default member
initialisers, `sampleRate(44100.0)`, and empty vectors. -/
def blank : State where
  delayTime := 375
  delayFeedback := 4 / 10
  delayMix := 1 / 2
  reverbSize := 7 / 10
  reverbMix := 3 / 10
  shimmerAmount := 2 / 10
  shimmerPitch := 12
  dryWet := 1 / 2
  channels := 2
  sampleRate := 44100
  delayBufferL := []
  delayBufferR := []
  writePos := 0
  combBuffersL := []
  combBuffersR := []
  combPosL := []
  combPosR := []
  allpassBuffersL := []
  allpassBuffersR := []
  allpassPosL := []
  allpassPosR := []

/-- The constructor `EdgeDelayDSPKernel()`: its body is `initialize(2, 44100.0)`. -/
def construct : Option State := initializeKernel blank 2 44100

/-! ## processReverb -/

/-- The comb loop of `processReverb` over the buffers and their cursors in parallel.
`acc` is the running `combOut`. For each filter: read `delayed = buffer[pos]`, write
`input + (delayed * damping) * roomSize` to the same cell, add the unscaled `delayed`
to `combOut`, advance the cursor modulo the buffer size. Cursors beyond the number of
buffers are left as they are. -/
def combLoop (input roomSize damping : ℚ) :
    ℚ → List (List ℚ) → List Nat → Option (List (List ℚ) × List Nat × ℚ)
  | acc, [], ps => some ([], ps, acc)
  | _, _ :: _, [] => none
  | acc, buffer :: bufs, pos :: ps =>
    match buffer[pos]? with
    | none => none
    | some delayed =>
      match combLoop input roomSize damping (acc + delayed) bufs ps with
      | none => none
      | some (bufs', ps', out) =>
        some (buffer.set pos (input + (delayed * damping) * roomSize) :: bufs',
              ((pos + 1) % buffer.length) :: ps', out)

/-- The allpass loop of `processReverb`; `allpassOut` is threaded through the filters
in order. For each filter: read `delayed = buffer[pos]`, write
`allpassOut + delayed * 0.5`, set `allpassOut = delayed - allpassOut * 0.5`, advance
the cursor modulo the buffer size. -/
def allpassLoop :
    ℚ → List (List ℚ) → List Nat → Option (List (List ℚ) × List Nat × ℚ)
  | allpassOut, [], ps => some ([], ps, allpassOut)
  | _, _ :: _, [] => none
  | allpassOut, buffer :: bufs, pos :: ps =>
    match buffer[pos]? with
    | none => none
    | some delayed =>
      match allpassLoop (delayed - allpassOut * (1 / 2)) bufs ps with
      | none => none
      | some (bufs', ps', out) =>
        some (buffer.set pos (allpassOut + delayed * (1 / 2)) :: bufs',
              ((pos + 1) % buffer.length) :: ps', out)

/-- The buffers and cursors of one channel, as selected by the four references at the
top of `processReverb`. -/
structure Channel where
  combBuffers : List (List ℚ)
  combPos : List Nat
  allpassBuffers : List (List ℚ)
  allpassPos : List Nat
deriving DecidableEq

/-- The body of `processReverb` on the selected channel. `combOut /= combBuffers.size()`
with no comb buffer at all is `0/0`, not a number: `none`. -/
def reverbChannel (reverbSize input : ℚ) (c : Channel) : Option (Channel × ℚ) :=
  match combLoop input (28 / 100 + reverbSize * (7 / 10)) (1 / 2) 0 c.combBuffers c.combPos with
  | none => none
  | some (cb, cp, combSum) =>
    if c.combBuffers.length = 0 then none
    else
      match allpassLoop (combSum / (c.combBuffers.length : ℚ)) c.allpassBuffers c.allpassPos with
      | none => none
      | some (ab, ap, allpassOut) =>
        some ({ combBuffers := cb, combPos := cp, allpassBuffers := ab, allpassPos := ap },
              allpassOut)

/-- The left channel of a state. -/
def State.left (s : State) : Channel :=
  { combBuffers := s.combBuffersL, combPos := s.combPosL,
    allpassBuffers := s.allpassBuffersL, allpassPos := s.allpassPosL }

/-- The right channel of a state. -/
def State.right (s : State) : Channel :=
  { combBuffers := s.combBuffersR, combPos := s.combPosR,
    allpassBuffers := s.allpassBuffersR, allpassPos := s.allpassPosR }

/-- Method `processReverb(input, isLeft)`: the updated state and the returned sample. -/
def processReverb (s : State) (input : ℚ) (isLeft : Bool) : Option (State × ℚ) :=
  if isLeft then
    match reverbChannel s.reverbSize input s.left with
    | none => none
    | some (c, out) =>
      some ({ s with combBuffersL := c.combBuffers, combPosL := c.combPos,
                     allpassBuffersL := c.allpassBuffers, allpassPosL := c.allpassPos }, out)
  else
    match reverbChannel s.reverbSize input s.right with
    | none => none
    | some (c, out) =>
      some ({ s with combBuffersR := c.combBuffers, combPosR := c.combPos,
                     allpassBuffersR := c.allpassBuffers, allpassPosR := c.allpassPos }, out)

/-! ## process -/

/-- The clamped delay length of `process`:
`std::min((int)((delayTime / 1000.0) * sampleRate), (int)delayBufferL.size() - 1)`. -/
def delayInSamples (s : State) : Option Int :=
  match toInt ((s.delayTime / 1000) * s.sampleRate) with
  | none => none
  | some d => some (min d ((s.delayBufferL.length : Int) - 1))

/-- The read position of one frame: `writePos - delayInSamples`, plus the buffer size
when that is negative. -/
def readPosOf (s : State) (d : Int) : Int :=
  if (s.writePos : Int) - d < 0 then (s.writePos : Int) - d + (s.delayBufferL.length : Int)
  else (s.writePos : Int) - d

/-- The shimmer tap position: `readPos - (int)(sampleRate * 0.01)`, plus the buffer size
when that is negative. -/
def shimmerReadPosOf (s : State) (readPos : Int) : Option Int :=
  match toInt (s.sampleRate * (1 / 100)) with
  | none => none
  | some k =>
    some (if readPos - k < 0 then readPos - k + (s.delayBufferL.length : Int) else readPos - k)

/-- The shimmer samples of one frame: zero unless `shimmerAmount > 0.01`. -/
def shimmerOf (s : State) (readPos : Int) : Option (ℚ × ℚ) :=
  if s.shimmerAmount > 1 / 100 then
    match shimmerReadPosOf s readPos with
    | none => none
    | some p =>
      match getAt s.delayBufferL p, getAt s.delayBufferR p with
      | some a, some b => some (a * s.shimmerAmount, b * s.shimmerAmount)
      | _, _ => none
  else some (0, 0)

/-- One iteration of the frame loop of `process`, for the inputs `inputL`, `inputR` and
the delay length `d` computed before the loop: the new state and `outL[i]`, `outR[i]`. -/
def processFrame (s : State) (d : Int) (inputL inputR : ℚ) : Option (State × ℚ × ℚ) :=
  match getAt s.delayBufferL (readPosOf s d), getAt s.delayBufferR (readPosOf s d) with
  | some delayedL, some delayedR =>
    match shimmerOf s (readPosOf s d) with
    | none => none
    | some (shimmerL, shimmerR) =>
      match processReverb s (delayedL + shimmerL) true with
      | none => none
      | some (s1, reverbOutL) =>
        match processReverb s1 (delayedR + shimmerR) false with
        | none => none
        | some (s2, reverbOutR) =>
          if s2.writePos < s2.delayBufferL.length ∧ s2.writePos < s2.delayBufferR.length then
            some ({ s2 with
                    delayBufferL :=
                      s2.delayBufferL.set s2.writePos (inputL + delayedL * s2.delayFeedback)
                    delayBufferR :=
                      s2.delayBufferR.set s2.writePos (inputR + delayedR * s2.delayFeedback)
                    writePos := (s2.writePos + 1) % s2.delayBufferL.length },
                  inputL * (1 - s2.dryWet)
                    + ((delayedL + shimmerL) * s2.delayMix + reverbOutL * s2.reverbMix) * s2.dryWet,
                  inputR * (1 - s2.dryWet)
                    + ((delayedR + shimmerR) * s2.delayMix + reverbOutR * s2.reverbMix) * s2.dryWet)
          else none
  | _, _ => none

/-- The frame loop of `process`: the state after frames `0 .. n-1` and the samples
written to `outL[0 .. n-1]` and `outR[0 .. n-1]`. The input pointers are functions from
the frame index. -/
def processLoop (d : Int) (inL inR : Nat → ℚ) (s : State) :
    Nat → Option (State × List ℚ × List ℚ)
  | 0 => some (s, [], [])
  | i + 1 =>
    match processLoop d inL inR s i with
    | none => none
    | some (s1, outL, outR) =>
      match processFrame s1 d (inL i) (inR i) with
      | none => none
      | some (s2, oL, oR) => some (s2, outL ++ [oL], outR ++ [oR])

/-- Method `process(inL, inR, outL, outR, frames)`: the final state and the contents
of `outL[0 .. frames-1]`, `outR[0 .. frames-1]`. A negative `frames` runs no iteration,
as `0` does, so the frame count is a natural number. -/
def process (s : State) (inL inR : Nat → ℚ) (frames : Nat) :
    Option (State × List ℚ × List ℚ) :=
  match delayInSamples s with
  | none => none
  | some d => processLoop d inL inR s frames

/-! ## Well-formed states -/

/-- Every cursor indexes a cell of its own buffer (and every buffer has a cursor). -/
def cursorsOK : List (List ℚ) → List Nat → Bool
  | [], _ => true
  | _ :: _, [] => false
  | buffer :: bufs, pos :: ps => decide (pos < buffer.length) && cursorsOK bufs ps

/-- A channel on which `processReverb` runs without fault: at least one comb filter and
all cursors inside their buffers. -/
def Channel.ok (c : Channel) : Prop :=
  c.combBuffers ≠ [] ∧ cursorsOK c.combBuffers c.combPos = true
    ∧ cursorsOK c.allpassBuffers c.allpassPos = true

instance (c : Channel) : Decidable c.ok := by
  unfold Channel.ok; infer_instance

/-- The shimmer tap offset `(int)(sampleRate * 0.01)` is defined and lies in
`[0, delayBufferL.size()]`. -/
def tapOK (s : State) : Bool :=
  match toInt (s.sampleRate * (1 / 100)) with
  | none => false
  | some k => decide (0 ≤ k ∧ k ≤ (s.delayBufferL.length : Int))

/-- The states on which the frame loop is defined: non-empty delay buffers of equal
length, the write position inside them, the shimmer offset within the buffer, and both
reverb channels with their cursors in bounds. This is what `initialize` establishes from
the constructor's empty vectors at an ordinary sample rate. -/
def Ready (s : State) : Prop :=
  0 < s.delayBufferL.length ∧ s.delayBufferR.length = s.delayBufferL.length
    ∧ s.writePos < s.delayBufferL.length ∧ tapOK s = true ∧ s.left.ok ∧ s.right.ok

instance (s : State) : Decidable (Ready s) := by
  unfold Ready; infer_instance

/-- A run of `processReverb` on one channel over a sequence of inputs: the final state
and the returned samples, in order. -/
def reverbRun (isLeft : Bool) : State → List ℚ → Option (State × List ℚ)
  | s, [] => some (s, [])
  | s, x :: xs =>
    match processReverb s x isLeft with
    | none => none
    | some (s1, y) =>
      match reverbRun isLeft s1 xs with
      | none => none
      | some (s2, ys) => some (s2, y :: ys)

/-- The unit impulse: `1` at frame `0`, `0` afterwards. -/
def impulse (i : Nat) : ℚ := if i = 0 then 1 else 0

/-- All samples of all buffers of a bank are zero. -/
def bankZero (bufs : List (List ℚ)) : Prop := ∀ b ∈ bufs, ∀ x ∈ b, x = 0

/-- All eight parameters, the sample rate and the channel count agree. -/
def SameParams (s t : State) : Prop :=
  t.delayTime = s.delayTime ∧ t.delayFeedback = s.delayFeedback ∧ t.delayMix = s.delayMix
    ∧ t.reverbSize = s.reverbSize ∧ t.reverbMix = s.reverbMix
    ∧ t.shimmerAmount = s.shimmerAmount ∧ t.shimmerPitch = s.shimmerPitch
    ∧ t.dryWet = s.dryWet ∧ t.sampleRate = s.sampleRate ∧ t.channels = s.channels

/-- The state after one frame, given what the frame read and what the reverb returned. -/
def frameState (s : State) (cL cR : Channel) (wL wR : ℚ) : State :=
  { s with
    combBuffersL := cL.combBuffers
    combPosL := cL.combPos
    allpassBuffersL := cL.allpassBuffers
    allpassPosL := cL.allpassPos
    combBuffersR := cR.combBuffers
    combPosR := cR.combPos
    allpassBuffersR := cR.allpassBuffers
    allpassPosR := cR.allpassPos
    delayBufferL := s.delayBufferL.set s.writePos wL
    delayBufferR := s.delayBufferR.set s.writePos wR
    writePos := (s.writePos + 1) % s.delayBufferL.length }

/-- Every sample of every delay, comb and allpass buffer of both channels is zero. -/
def Silent (s : State) : Prop :=
  (∀ x ∈ s.delayBufferL, x = 0) ∧ (∀ x ∈ s.delayBufferR, x = 0)
    ∧ bankZero s.combBuffersL ∧ bankZero s.combBuffersR
    ∧ bankZero s.allpassBuffersL ∧ bankZero s.allpassBuffersR

/-- The state `initialize(channelCount, inSampleRate)` leaves behind when the delay
buffers are resized to `n` samples and the four filter banks to `cL`, `cR`, `aL`, `aR`. -/
def initState (s : State) (channelCount : Int) (inSampleRate : ℚ) (n : Nat)
    (cL cR aL aR : List (List ℚ)) : State :=
  { s with
    channels := channelCount
    sampleRate := inSampleRate
    delayBufferL := resize s.delayBufferL n 0
    delayBufferR := resize s.delayBufferR n 0
    writePos := 0
    combBuffersL := cL
    combBuffersR := cR
    combPosL := resize s.combPosL combDelays.length 0
    combPosR := resize s.combPosR combDelays.length 0
    allpassBuffersL := aL
    allpassBuffersR := aR
    allpassPosL := resize s.allpassPosL allpassDelays.length 0
    allpassPosR := resize s.allpassPosR allpassDelays.length 0 }

/-- The state the constructor leaves behind (see `construct_eq`): default parameters,
44100 Hz, all buffers zero with the design lengths, all cursors zero. -/
def constructed : State :=
  { blank with
    channels := 2
    sampleRate := 44100
    delayBufferL := List.replicate 88200 0
    delayBufferR := List.replicate 88200 0
    writePos := 0
    combBuffersL := combDelays.map (fun c => List.replicate c.toNat 0)
    combBuffersR := combDelays.map (fun c => List.replicate (c.toNat + 23) 0)
    combPosL := List.replicate 8 0
    combPosR := List.replicate 8 0
    allpassBuffersL := allpassDelays.map (fun c => List.replicate c.toNat 0)
    allpassBuffersR := allpassDelays.map (fun c => List.replicate (c.toNat + 23) 0)
    allpassPosL := List.replicate 4 0
    allpassPosR := List.replicate 4 0 }

/-- The sample the feedback path writes at frame `t` in response to a unit impulse, for
feedback `f` and delay length `D`: `f ^ k` at frame `k * D`, zero elsewhere. -/
def echoAt (f : ℚ) (D t : Nat) : ℚ := if D ∣ t then f ^ (t / D) else 0

/-- The delayed sample read at frame `t`: what was written `D` frames earlier. -/
def echoOut (f : ℚ) (D t : Nat) : ℚ := if t < D then 0 else echoAt f D (t - D)

/-- The contents of a delay buffer of length `N` before frame `t` of the impulse
response: the cell `i` places after the write position holds what was written at frame
`t + i - N`, or zero when that frame is before the start. -/
def EchoInv (f : ℚ) (D N t : Nat) (buf : List ℚ) : Prop :=
  buf.length = N
    ∧ ∀ i < N, buf[(t + i) % N]? = some (if t + i < N then 0 else echoAt f D (t + i - N))

/-- The invariant of the impulse response before frame `t`: a well-formed state with
the delay-only parameter setting, the write position at `t mod N`, and both delay
buffers holding the last `N` written samples. -/
def EchoState (f : ℚ) (D N t : Nat) (s : State) : Prop :=
  Ready s ∧ s.delayFeedback = f ∧ s.shimmerAmount ≤ 1 / 100 ∧ s.reverbMix = 0
    ∧ s.delayMix = 1 ∧ s.dryWet = 1 ∧ s.writePos = t % N
    ∧ EchoInv f D N t s.delayBufferL ∧ EchoInv f D N t s.delayBufferR

/-- The parameter setting of the delay tests: feedback `0`, shimmer `0`, reverb mix `0`,
delay mix `1`, dry/wet `1`, set through `setParameter`. -/
def delayOnly (s : State) : State :=
  setParameter (setParameter (setParameter (setParameter (setParameter s 1 0) 5 0) 4 0) 2 1) 7 1

/-- The cursors after one pass of a filter loop: each cursor that has a buffer moves to
`(pos + 1) % buffer.size()`. -/
def advanceCursors : List (List ℚ) → List Nat → List Nat
  | [], ps => ps
  | _ :: _, [] => []
  | buffer :: bufs, pos :: ps => ((pos + 1) % buffer.length) :: advanceCursors bufs ps

/-- The shape of a channel: the lengths of its buffers and the values of its cursors,
without the samples. -/
def Channel.shape (c : Channel) : List Nat × List Nat × List Nat × List Nat :=
  (c.combBuffers.map List.length, c.combPos, c.allpassBuffers.map List.length, c.allpassPos)

/-- Two states agree on everything the right channel can see: parameters, write
position, the right delay buffer, the right reverb channel, and the shape (not the
samples) of the left delay buffer and left reverb channel. -/
def RightEq (s t : State) : Prop :=
  SameParams s t ∧ t.writePos = s.writePos ∧ t.delayBufferR = s.delayBufferR
    ∧ t.right = s.right ∧ t.delayBufferL.length = s.delayBufferL.length
    ∧ t.left.shape = s.left.shape

/-- Two states agree on everything the left channel can see. -/
def LeftEq (s t : State) : Prop :=
  SameParams s t ∧ t.writePos = s.writePos ∧ t.delayBufferL = s.delayBufferL
    ∧ t.left = s.left ∧ t.delayBufferR.length = s.delayBufferR.length
    ∧ t.right.shape = s.right.shape

/-- What a run of `process` leaves for the right channel: `outR`, the right delay
buffer, the right comb and allpass buffers with their cursors, and the write position. -/
def rightPart (r : State × List ℚ × List ℚ) : List ℚ × List ℚ × Channel × Nat :=
  (r.2.2, r.1.delayBufferR, r.1.right, r.1.writePos)

/-- What a run of `process` leaves for the left channel. -/
def leftPart (r : State × List ℚ × List ℚ) : List ℚ × List ℚ × Channel × Nat :=
  (r.2.1, r.1.delayBufferL, r.1.left, r.1.writePos)

/-- The channel `processReverb` selects. -/
def chan (isLeft : Bool) (s : State) : Channel := if isLeft then s.left else s.right

/-- Every sample of every buffer of a bank is at most `K` in absolute value. -/
def bankBound (K : ℚ) (bufs : List (List ℚ)) : Prop := ∀ b ∈ bufs, ∀ x ∈ b, |x| ≤ K

/-- The bound carried along the allpass chain for an input bounded by `Y`: the cells of
the first filter are bounded by `2 * Y`, and its output, bounded by `5/2 * Y`, is the
input of the next one. -/
def allpassBound : ℚ → List (List ℚ) → Prop
  | _, [] => True
  | Y, buffer :: bufs => (∀ x ∈ buffer, |x| ≤ 2 * Y) ∧ allpassBound (5 / 2 * Y) bufs

/-- Two states have the same buffer sizes and the same number of cursors. -/
def SameShape (s t : State) : Prop :=
  t.delayBufferL.length = s.delayBufferL.length
    ∧ t.delayBufferR.length = s.delayBufferR.length
    ∧ t.combBuffersL.map List.length = s.combBuffersL.map List.length
    ∧ t.combBuffersR.map List.length = s.combBuffersR.map List.length
    ∧ t.allpassBuffersL.map List.length = s.allpassBuffersL.map List.length
    ∧ t.allpassBuffersR.map List.length = s.allpassBuffersR.map List.length
    ∧ t.combPosL.length = s.combPosL.length ∧ t.combPosR.length = s.combPosR.length
    ∧ t.allpassPosL.length = s.allpassPosL.length
    ∧ t.allpassPosR.length = s.allpassPosR.length

/-- The constant input `1`. -/
def ones (_ : Nat) : ℚ := 1

/-- The cursors of a bank after `f` calls of `processReverb`: the cursor `p` of a buffer
of length `L` stands at `(p + f) % L`. -/
def advanceBy (f : Nat) : List (List ℚ) → List Nat → List Nat
  | [], ps => ps
  | _ :: _, [] => []
  | buffer :: bufs, pos :: ps => ((pos + f) % buffer.length) :: advanceBy f bufs ps

/-! ## The Schroeder reference step

These definitions follow the words of the specification of one reverb step, not the
loops of `processReverb`. -/

/-- Reference: the values `d_i` that the comb filters hold at their cursors. -/
def schroederReads : List (List ℚ) → List Nat → List ℚ
  | buffer :: bufs, pos :: ps => buffer.getD pos 0 :: schroederReads bufs ps
  | _, _ => []

/-- Reference: comb `i`'s cell at its cursor becomes `x + (0.5 * d_i) * roomSize`, all its
other cells are unchanged. -/
def schroederCombCells (x roomSize : ℚ) : List (List ℚ) → List Nat → List (List ℚ)
  | buffer :: bufs, pos :: ps =>
    buffer.set pos (x + (1 / 2 * buffer.getD pos 0) * roomSize)
      :: schroederCombCells x roomSize bufs ps
  | _, _ => []

/-- Reference: the allpass chain. With `y` the output of the previous stage and `e` the
value of the allpass at its cursor, the cell becomes `y + 0.5 * e` and the stage outputs
`e - 0.5 * y`; the result is the new buffers and the output of the last stage. -/
def schroederAllpass : ℚ → List (List ℚ) → List Nat → List (List ℚ) × ℚ
  | y, buffer :: bufs, pos :: ps =>
    ((buffer.set pos (y + 1 / 2 * buffer.getD pos 0)
        :: (schroederAllpass (buffer.getD pos 0 - 1 / 2 * y) bufs ps).1),
      (schroederAllpass (buffer.getD pos 0 - 1 / 2 * y) bufs ps).2)
  | y, _, _ => ([], y)

/-- Reference: one reverb step on a channel for the input `x`, with
`roomSize = 0.28 + 0.7 * reverbSize` and the comb-stage output `(d_1 + ... + d_8) / 8`:
the channel afterwards (every cursor advanced by one modulo its buffer length) and the
returned value. -/
def schroederStep (reverbSize x : ℚ) (c : Channel) : Channel × ℚ :=
  ({ combBuffers :=
       schroederCombCells x (28 / 100 + 7 / 10 * reverbSize) c.combBuffers c.combPos
     combPos := advanceCursors c.combBuffers c.combPos
     allpassBuffers :=
       (schroederAllpass ((schroederReads c.combBuffers c.combPos).sum / 8)
         c.allpassBuffers c.allpassPos).1
     allpassPos := advanceCursors c.allpassBuffers c.allpassPos },
   (schroederAllpass ((schroederReads c.combBuffers c.combPos).sum / 8)
     c.allpassBuffers c.allpassPos).2)

/-- The result of a run with the shimmer pitch of the final state replaced by `v`. -/
def withPitch (v : ℚ) (r : State × List ℚ × List ℚ) : State × List ℚ × List ℚ :=
  (setParameter r.1 6 v, r.2.1, r.2.2)

/-- The input pointer advanced by `n` frames. -/
def shiftInput (n : Nat) (x : Nat → ℚ) (i : Nat) : ℚ := x (n + i)

/-- Two calls of `process` in a row: `n` frames, then `m` frames on the inputs that
follow, with the outputs concatenated. -/
def processSplit (s : State) (inL inR : Nat → ℚ) (n m : Nat) :
    Option (State × List ℚ × List ℚ) :=
  match process s inL inR n with
  | none => none
  | some (s1, outL1, outR1) =>
    match process s1 (shiftInput n inL) (shiftInput n inR) m with
    | none => none
    | some (s2, outL2, outR2) => some (s2, outL1 ++ outL2, outR1 ++ outR2)

/-! ## Parameters -/

/-- C1. For every state, every address `a` in `0..7` and every value `v`,
`getParameter(a)` on the state produced by `setParameter(a, v)` returns exactly `v`. -/
theorem getParameter_setParameter (s : State) (a : Nat) (v : ℚ) (ha : a < 8) :
    getParameter (setParameter s a v) a = v := by
  interval_cases a <;> rfl

/-- Witness of C1 at address `6` on the constructor's members. -/
theorem getParameter_setParameter_witness :
    (6 : Nat) < 8 ∧ getParameter (setParameter blank 6 (-7 / 2)) 6 = -7 / 2 :=
  ⟨by decide, getParameter_setParameter blank 6 (-7 / 2) (by decide)⟩

/-- C2. For every address `a` outside `0..7` and every value `v`, `setParameter(a, v)`
leaves the whole state unchanged and `getParameter(a)` returns `0`. -/
theorem unknown_address (s : State) (a : Nat) (v : ℚ) (ha : 8 ≤ a) :
    setParameter s a v = s ∧ getParameter s a = 0 := by
  obtain ⟨k, rfl⟩ : ∃ k, a = k + 8 := ⟨a - 8, by omega⟩
  exact ⟨rfl, rfl⟩

/-- Witness of C2 at address `8`. -/
theorem unknown_address_witness :
    (8 : Nat) ≤ 8 ∧ setParameter blank 8 5 = blank ∧ getParameter blank 8 = 0 :=
  ⟨by decide, unknown_address blank 8 5 (by decide)⟩

/-! ## The filter loops -/

theorem getElem?_zero_of_zero {b : List ℚ} (hb : ∀ x ∈ b, x = 0) {i : Nat} {v : ℚ}
    (h : b[i]? = some v) : v = 0 :=
  hb v (List.getElem?_mem h)

theorem combLoop_ok (input roomSize damping : ℚ) :
    ∀ (bufs : List (List ℚ)) (ps : List Nat) (acc : ℚ), cursorsOK bufs ps = true →
      ∃ bufs' ps' out, combLoop input roomSize damping acc bufs ps = some (bufs', ps', out)
        ∧ cursorsOK bufs' ps' = true ∧ bufs'.map List.length = bufs.map List.length
        ∧ ps'.length = ps.length := by
  intro bufs
  induction bufs with
  | nil => intro ps acc _; exact ⟨[], ps, acc, rfl, rfl, rfl, rfl⟩
  | cons buffer bufs ih =>
    intro ps acc h
    cases ps with
    | nil => simp [cursorsOK] at h
    | cons pos ps =>
      simp only [cursorsOK, Bool.and_eq_true, decide_eq_true_eq] at h
      obtain ⟨bufs', ps', out, he, hc, hl, hp⟩ := ih ps (acc + buffer[pos]) h.2
      refine ⟨buffer.set pos (input + (buffer[pos] * damping) * roomSize) :: bufs',
        ((pos + 1) % buffer.length) :: ps', out, ?_, ?_, ?_, ?_⟩
      · simp only [combLoop, List.getElem?_eq_getElem h.1, he]
      · simp only [cursorsOK, Bool.and_eq_true, decide_eq_true_eq, List.length_set]
        exact ⟨Nat.mod_lt _ (by omega), hc⟩
      · simp [hl]
      · simp [hp]

theorem allpassLoop_ok :
    ∀ (bufs : List (List ℚ)) (ps : List Nat) (x : ℚ), cursorsOK bufs ps = true →
      ∃ bufs' ps' out, allpassLoop x bufs ps = some (bufs', ps', out)
        ∧ cursorsOK bufs' ps' = true ∧ bufs'.map List.length = bufs.map List.length
        ∧ ps'.length = ps.length := by
  intro bufs
  induction bufs with
  | nil => intro ps x _; exact ⟨[], ps, x, rfl, rfl, rfl, rfl⟩
  | cons buffer bufs ih =>
    intro ps x h
    cases ps with
    | nil => simp [cursorsOK] at h
    | cons pos ps =>
      simp only [cursorsOK, Bool.and_eq_true, decide_eq_true_eq] at h
      obtain ⟨bufs', ps', out, he, hc, hl, hp⟩ := ih ps (buffer[pos] - x * (1 / 2)) h.2
      refine ⟨buffer.set pos (x + buffer[pos] * (1 / 2)) :: bufs',
        ((pos + 1) % buffer.length) :: ps', out, ?_, ?_, ?_, ?_⟩
      · simp only [allpassLoop, List.getElem?_eq_getElem h.1, he]
      · simp only [cursorsOK, Bool.and_eq_true, decide_eq_true_eq, List.length_set]
        exact ⟨Nat.mod_lt _ (by omega), hc⟩
      · simp [hl]
      · simp [hp]

theorem reverbChannel_ok (reverbSize input : ℚ) (c : Channel) (hc : c.ok) :
    ∃ c' y, reverbChannel reverbSize input c = some (c', y) ∧ c'.ok
      ∧ c'.combBuffers.map List.length = c.combBuffers.map List.length
      ∧ c'.allpassBuffers.map List.length = c.allpassBuffers.map List.length := by
  obtain ⟨hne, h1, h2⟩ := hc
  obtain ⟨cb, cp, sum, he, hcb, hlen, _⟩ :=
    combLoop_ok input (28 / 100 + reverbSize * (7 / 10)) (1 / 2) c.combBuffers c.combPos 0 h1
  obtain ⟨ab, ap, out, he', hab, hlen', _⟩ :=
    allpassLoop_ok c.allpassBuffers c.allpassPos (sum / (c.combBuffers.length : ℚ)) h2
  have hlen0 : c.combBuffers.length ≠ 0 := by
    intro h0; exact hne (List.length_eq_zero.mp h0)
  refine ⟨{ combBuffers := cb, combPos := cp, allpassBuffers := ab, allpassPos := ap }, out,
    ?_, ⟨?_, hcb, hab⟩, hlen, hlen'⟩
  · simp only [reverbChannel, he, he', if_neg hlen0]
  · intro h0
    change cb = [] at h0
    rw [h0] at hlen
    exact hne (by simpa using hlen.symm)

theorem getAt_natCast (l : List ℚ) (n : Nat) : getAt l (n : Int) = l[n]? := by
  simp [getAt]

/-- With the write position `w < N` and a delay length `0 ≤ d < N`, the read position is
`(w + (N - d)) mod N`. -/
theorem readPosOf_eq (s : State) (dn : Nat) (hw : s.writePos < s.delayBufferL.length)
    (hd : dn < s.delayBufferL.length) :
    readPosOf s (dn : Int)
      = (((s.writePos + (s.delayBufferL.length - dn)) % s.delayBufferL.length : Nat) : Int) := by
  unfold readPosOf
  by_cases h : s.writePos < dn
  · have h1 : ((s.writePos : Int) - (dn : Int) < 0) := by omega
    rw [if_pos h1, Nat.mod_eq_of_lt (by omega)]
    omega
  · have h1 : ¬ ((s.writePos : Int) - (dn : Int) < 0) := by omega
    have h2 : s.writePos + (s.delayBufferL.length - dn)
        = (s.writePos - dn) + s.delayBufferL.length := by omega
    rw [if_neg h1, h2, Nat.add_mod_right, Nat.mod_eq_of_lt (by omega)]
    omega

theorem shimmerOf_ok (s : State) (r : Nat) (hN : s.delayBufferR.length = s.delayBufferL.length)
    (ht : tapOK s = true) (hr : r < s.delayBufferL.length) :
    ∃ shL shR, shimmerOf s (r : Int) = some (shL, shR)
      ∧ (s.shimmerAmount ≤ 1 / 100 → shL = 0 ∧ shR = 0)
      ∧ ((∀ x ∈ s.delayBufferL, x = 0) → shL = 0)
      ∧ ((∀ x ∈ s.delayBufferR, x = 0) → shR = 0) := by
  unfold shimmerOf
  by_cases ha : s.shimmerAmount > 1 / 100
  · rw [if_pos ha]
    unfold tapOK at ht
    unfold shimmerReadPosOf
    cases hk : toInt (s.sampleRate * (1 / 100)) with
    | none => rw [hk] at ht; exact absurd ht (by simp)
    | some k =>
      rw [hk] at ht
      simp only [decide_eq_true_eq] at ht
      obtain ⟨p, hp, hpN⟩ : ∃ p : Nat, (if (r : Int) - k < 0
          then (r : Int) - k + (s.delayBufferL.length : Int) else (r : Int) - k) = (p : Int)
          ∧ p < s.delayBufferL.length := by
        by_cases hneg : (r : Int) - k < 0
        · exact ⟨((r : Int) - k + (s.delayBufferL.length : Int)).toNat, by rw [if_pos hneg]; omega,
            by omega⟩
        · exact ⟨((r : Int) - k).toNat, by rw [if_neg hneg]; omega, by omega⟩
      simp only [hp, getAt_natCast, List.getElem?_eq_getElem hpN,
        List.getElem?_eq_getElem (hN ▸ hpN : p < s.delayBufferR.length)]
      refine ⟨_, _, rfl, ?_, ?_, ?_⟩
      · intro hle; exact absurd ha (not_lt.mpr hle)
      · intro hz; rw [hz _ (List.getElem_mem _), zero_mul]
      · intro hz; rw [hz _ (List.getElem_mem _), zero_mul]
  · rw [if_neg ha]
    exact ⟨0, 0, rfl, fun _ => ⟨rfl, rfl⟩, fun _ => rfl, fun _ => rfl⟩

theorem processFrame_eq (s : State) (d : Int) (xL xR dlL dlR shL shR yL yR : ℚ)
    (cL cR : Channel)
    (h1 : getAt s.delayBufferL (readPosOf s d) = some dlL)
    (h2 : getAt s.delayBufferR (readPosOf s d) = some dlR)
    (h3 : shimmerOf s (readPosOf s d) = some (shL, shR))
    (h4 : reverbChannel s.reverbSize (dlL + shL) s.left = some (cL, yL))
    (h5 : reverbChannel s.reverbSize (dlR + shR) s.right = some (cR, yR))
    (h6 : s.writePos < s.delayBufferL.length) (h7 : s.writePos < s.delayBufferR.length) :
    processFrame s d xL xR
      = some (frameState s cL cR (xL + dlL * s.delayFeedback) (xR + dlR * s.delayFeedback),
          xL * (1 - s.dryWet) + ((dlL + shL) * s.delayMix + yL * s.reverbMix) * s.dryWet,
          xR * (1 - s.dryWet) + ((dlR + shR) * s.delayMix + yR * s.reverbMix) * s.dryWet) := by
  unfold processFrame
  rw [h1, h2]
  simp only [h3]
  have e1 : processReverb s (dlL + shL) true
      = some ({ s with
                combBuffersL := cL.combBuffers, combPosL := cL.combPos,
                allpassBuffersL := cL.allpassBuffers, allpassPosL := cL.allpassPos }, yL) := by
    simp only [processReverb, if_true, h4]
  rw [e1]
  simp only []
  have e2 : processReverb
        { s with
          combBuffersL := cL.combBuffers, combPosL := cL.combPos,
          allpassBuffersL := cL.allpassBuffers, allpassPosL := cL.allpassPos }
        (dlR + shR) false
      = some ({ s with
                combBuffersL := cL.combBuffers, combPosL := cL.combPos,
                allpassBuffersL := cL.allpassBuffers, allpassPosL := cL.allpassPos,
                combBuffersR := cR.combBuffers, combPosR := cR.combPos,
                allpassBuffersR := cR.allpassBuffers, allpassPosR := cR.allpassPos }, yR) := by
    have h5' : reverbChannel
        ({ s with
           combBuffersL := cL.combBuffers, combPosL := cL.combPos,
           allpassBuffersL := cL.allpassBuffers,
           allpassPosL := cL.allpassPos } : State).reverbSize (dlR + shR)
        ({ s with
           combBuffersL := cL.combBuffers, combPosL := cL.combPos,
           allpassBuffersL := cL.allpassBuffers,
           allpassPosL := cL.allpassPos } : State).right = some (cR, yR) := h5
    simp only [processReverb, Bool.false_eq_true, if_false, h5']
  rw [e2]
  simp only []
  rw [if_pos ⟨h6, h7⟩]
  rfl

theorem ready_frameState (s : State) (cL cR : Channel) (wL wR : ℚ) (hs : Ready s)
    (hL : cL.ok) (hR : cR.ok) : Ready (frameState s cL cR wL wR) := by
  obtain ⟨hN, hNR, hw, ht, -, -⟩ := hs
  refine ⟨?_, ?_, ?_, ?_, hL, hR⟩
  · simpa [frameState] using hN
  · simpa [frameState] using hNR
  · simp only [frameState, List.length_set]
    exact Nat.mod_lt _ hN
  · simpa [frameState, tapOK] using ht

theorem processFrame_ok (s : State) (dn : Nat) (xL xR : ℚ) (hs : Ready s)
    (hd : dn < s.delayBufferL.length) :
    ∃ dlL dlR shL shR yL yR cL cR,
      s.delayBufferL[(s.writePos + (s.delayBufferL.length - dn)) % s.delayBufferL.length]?
          = some dlL
      ∧ s.delayBufferR[(s.writePos + (s.delayBufferL.length - dn)) % s.delayBufferL.length]?
          = some dlR
      ∧ (s.shimmerAmount ≤ 1 / 100 → shL = 0 ∧ shR = 0)
      ∧ ((∀ x ∈ s.delayBufferL, x = 0) → shL = 0)
      ∧ ((∀ x ∈ s.delayBufferR, x = 0) → shR = 0)
      ∧ reverbChannel s.reverbSize (dlL + shL) s.left = some (cL, yL) ∧ cL.ok
      ∧ reverbChannel s.reverbSize (dlR + shR) s.right = some (cR, yR) ∧ cR.ok
      ∧ processFrame s (dn : Int) xL xR
          = some (frameState s cL cR (xL + dlL * s.delayFeedback) (xR + dlR * s.delayFeedback),
              xL * (1 - s.dryWet) + ((dlL + shL) * s.delayMix + yL * s.reverbMix) * s.dryWet,
              xR * (1 - s.dryWet) + ((dlR + shR) * s.delayMix + yR * s.reverbMix) * s.dryWet)
      ∧ Ready (frameState s cL cR (xL + dlL * s.delayFeedback)
          (xR + dlR * s.delayFeedback)) := by
  have hs' := hs
  obtain ⟨hN, hNR, hw, ht, hcL, hcR⟩ := hs'
  have hr : (s.writePos + (s.delayBufferL.length - dn)) % s.delayBufferL.length
      < s.delayBufferL.length := Nat.mod_lt _ hN
  have hrp := readPosOf_eq s dn hw hd
  obtain ⟨shL, shR, hsh, hsh0, hshL, hshR⟩ := shimmerOf_ok s _ hNR ht hr
  obtain ⟨cL, yL, hrL, hokL, -, -⟩ := reverbChannel_ok s.reverbSize
    (s.delayBufferL[(s.writePos + (s.delayBufferL.length - dn)) % s.delayBufferL.length] + shL)
    s.left hcL
  have hr2 : (s.writePos + (s.delayBufferL.length - dn)) % s.delayBufferL.length
      < s.delayBufferR.length := by rw [hNR]; exact hr
  obtain ⟨cR, yR, hrR, hokR, -, -⟩ := reverbChannel_ok s.reverbSize
    (s.delayBufferR[(s.writePos + (s.delayBufferL.length - dn)) % s.delayBufferL.length] + shR)
    s.right hcR
  refine ⟨_, _, shL, shR, yL, yR, cL, cR, List.getElem?_eq_getElem hr,
    List.getElem?_eq_getElem hr2, hsh0, hshL, hshR, hrL, hokL, hrR, hokR,
    ?_, ready_frameState s cL cR _ _ hs hokL hokR⟩
  apply processFrame_eq s dn xL xR _ _ shL shR yL yR cL cR
  · rw [hrp, getAt_natCast]; exact List.getElem?_eq_getElem hr
  · rw [hrp, getAt_natCast]; exact List.getElem?_eq_getElem hr2
  · rw [hrp]; exact hsh
  · exact hrL
  · exact hrR
  · exact hw
  · rw [hNR]; exact hw

/-! ## Casts and the delay length -/

theorem trunc_eq_floor {x : ℚ} (hx : 0 ≤ x) : trunc x = ⌊x⌋ := by
  unfold trunc
  rw [Rat.floor_def, Int.tdiv_eq_ediv (Rat.num_nonneg.mpr hx) (Int.ofNat_nonneg _)]

theorem toInt_of_nonneg {x : ℚ} (hx : 0 ≤ x) (hlt : x < 2 ^ 31) :
    toInt x = some ⌊x⌋ ∧ 0 ≤ ⌊x⌋ := by
  have h0 : 0 ≤ ⌊x⌋ := Int.floor_nonneg.mpr hx
  have h1 : ⌊x⌋ < (2 : Int) ^ 31 := by
    have : ((⌊x⌋ : ℤ) : ℚ) < ((2 ^ 31 : ℤ) : ℚ) := by
      push_cast
      exact lt_of_le_of_lt (Int.floor_le x) hlt
    exact_mod_cast this
  refine ⟨?_, h0⟩
  unfold toInt
  rw [trunc_eq_floor hx, if_pos ⟨by omega, h1⟩]

theorem zeroFill_zero (l : List ℚ) : ∀ x ∈ zeroFill l, x = 0 := by
  intro x hx
  simp only [zeroFill, List.mem_map] at hx
  obtain ⟨_, _, rfl⟩ := hx
  rfl

theorem bankZero_map_zeroFill (bufs : List (List ℚ)) : bankZero (bufs.map zeroFill) := by
  intro b hb
  simp only [List.mem_map] at hb
  obtain ⟨l, _, rfl⟩ := hb
  exact zeroFill_zero l

theorem silent_reset (s : State) : Silent (reset s) :=
  ⟨zeroFill_zero _, zeroFill_zero _, bankZero_map_zeroFill _, bankZero_map_zeroFill _,
    bankZero_map_zeroFill _, bankZero_map_zeroFill _⟩

/-- What `initialize` computes: it succeeds exactly when the delay length and the four
filter banks can be sized, and then yields `initState`. -/
theorem initializeKernel_eq_some (s s' : State) (c : Int) (r : ℚ) :
    initializeKernel s c r = some s' ↔
      ∃ n : Nat, ∃ cL cR aL aR, toInt (maxDelayTime * r) = some (n : Int)
        ∧ resizeFilters r 0 combDelays (resize s.combBuffersL combDelays.length []) = some cL
        ∧ resizeFilters r 23 combDelays (resize s.combBuffersR combDelays.length []) = some cR
        ∧ resizeFilters r 0 allpassDelays
            (resize s.allpassBuffersL allpassDelays.length []) = some aL
        ∧ resizeFilters r 23 allpassDelays
            (resize s.allpassBuffersR allpassDelays.length []) = some aR
        ∧ s' = initState s c r n cL cR aL aR := by
  unfold initializeKernel
  cases hn : toInt (maxDelayTime * r) with
  | none => simp
  | some m =>
    by_cases hm : 0 ≤ m
    · obtain ⟨n, rfl⟩ := Int.eq_ofNat_of_zero_le hm
      simp only [resizeInt, hm, if_true, Int.toNat_ofNat, initializeReverb]
      cases h1 : resizeFilters r 0 combDelays (resize s.combBuffersL combDelays.length [])
        <;> cases h2 : resizeFilters r 23 combDelays (resize s.combBuffersR combDelays.length [])
        <;> cases h3 : resizeFilters r 0 allpassDelays
              (resize s.allpassBuffersL allpassDelays.length [])
        <;> cases h4 : resizeFilters r 23 allpassDelays
              (resize s.allpassBuffersR allpassDelays.length [])
        <;> simp [initState, eq_comm]
    · simp only [resizeInt, hm, if_false]
      constructor
      · intro h; exact absurd h (by simp)
      · rintro ⟨n, _, _, _, _, h, _⟩
        simp only [Option.some.injEq] at h
        omega

theorem sized_combL :
    resizeFilters 44100 0 combDelays (resize blank.combBuffersL combDelays.length [])
      = some constructed.combBuffersL := by decide!

theorem sized_combR :
    resizeFilters 44100 23 combDelays (resize blank.combBuffersR combDelays.length [])
      = some constructed.combBuffersR := by decide!

theorem sized_allpassL :
    resizeFilters 44100 0 allpassDelays (resize blank.allpassBuffersL allpassDelays.length [])
      = some constructed.allpassBuffersL := by decide!

theorem sized_allpassR :
    resizeFilters 44100 23 allpassDelays (resize blank.allpassBuffersR allpassDelays.length [])
      = some constructed.allpassBuffersR := by decide!

theorem toInt_maxDelay_44100 : toInt (maxDelayTime * 44100) = some ((88200 : Nat) : Int) := by
  decide!

/-- The constructor succeeds and leaves the state `constructed`. -/
theorem construct_eq : construct = some constructed := by
  unfold construct
  rw [initializeKernel_eq_some]
  exact ⟨88200, _, _, _, _, toInt_maxDelay_44100, sized_combL, sized_combR, sized_allpassL,
    sized_allpassR, rfl⟩

/-! ## Parameters and reset leave the shape alone -/

/-- The method `setParameter` touches no buffer, cursor, sample rate or channel count. -/
theorem setParameter_frame (s : State) (a : Nat) (v : ℚ) :
    (setParameter s a v).channels = s.channels
      ∧ (setParameter s a v).sampleRate = s.sampleRate
      ∧ (setParameter s a v).delayBufferL = s.delayBufferL
      ∧ (setParameter s a v).delayBufferR = s.delayBufferR
      ∧ (setParameter s a v).writePos = s.writePos
      ∧ (setParameter s a v).left = s.left
      ∧ (setParameter s a v).right = s.right := by
  unfold setParameter
  split <;> exact ⟨rfl, rfl, rfl, rfl, rfl, rfl, rfl⟩

theorem ready_setParameter (s : State) (a : Nat) (v : ℚ) (hs : Ready s) :
    Ready (setParameter s a v) := by
  obtain ⟨-, h2, h3, h4, h5, h6, h7⟩ := setParameter_frame s a v
  unfold Ready tapOK at *
  rw [h2, h3, h4, h5, h6, h7]
  exact hs

theorem cursorsOK_zero (bufs : List (List ℚ)) :
    ∀ ps : List Nat, cursorsOK bufs ps = true →
      cursorsOK (bufs.map zeroFill) (zeroFill ps) = true := by
  induction bufs with
  | nil => intro ps _; rfl
  | cons b bufs ih =>
    intro ps h
    cases ps with
    | nil => simp [cursorsOK] at h
    | cons p ps =>
      simp only [cursorsOK, Bool.and_eq_true, decide_eq_true_eq] at h
      simp only [List.map_cons, zeroFill, cursorsOK, Bool.and_eq_true, decide_eq_true_eq,
        List.length_map]
      exact ⟨by omega, ih ps h.2⟩

theorem ready_reset (s : State) (hs : Ready s) : Ready (reset s) := by
  obtain ⟨h1, h2, h3, h4, ⟨h5, h6, h7⟩, ⟨h8, h9, h10⟩⟩ := hs
  refine ⟨?_, ?_, ?_, ?_, ⟨?_, ?_, ?_⟩, ⟨?_, ?_, ?_⟩⟩
  · simpa [reset, zeroFill] using h1
  · simpa [reset, zeroFill] using h2
  · simpa [reset, zeroFill] using h1
  · simpa [reset, zeroFill, tapOK] using h4
  · simpa [reset, State.left] using h5
  · exact cursorsOK_zero _ _ h6
  · exact cursorsOK_zero _ _ h7
  · simpa [reset, State.right] using h8
  · exact cursorsOK_zero _ _ h9
  · exact cursorsOK_zero _ _ h10

theorem ready_constructed : Ready constructed := by
  have ht : toInt (constructed.sampleRate * (1 / 100)) = some 441 := by decide!
  refine ⟨?_, ?_, ?_, ?_, by decide!, by decide!⟩
  · simp only [constructed, List.length_replicate]; decide
  · simp only [constructed, List.length_replicate]
  · simp only [constructed, List.length_replicate]; decide
  · unfold tapOK
    rw [ht]
    simp only [constructed, List.length_replicate]
    decide


/-! ## A faulting read -/

theorem processFrame_none_of_read (s : State) (d : Int) (xL xR : ℚ)
    (h : getAt s.delayBufferL (readPosOf s d) = none) : processFrame s d xL xR = none := by
  unfold processFrame
  rw [h]

theorem processLoop_none_of_first (s : State) (d : Int) (inL inR : Nat → ℚ)
    (h : processFrame s d (inL 0) (inR 0) = none) (n : Nat) :
    processLoop d inL inR s (n + 1) = none := by
  induction n with
  | zero => simp only [processLoop, h]
  | succ n ih => rw [processLoop, ih]

theorem process_none_of_read (s : State) (d : Int) (inL inR : Nat → ℚ) (n : Nat)
    (hd : delayInSamples s = some d) (h : getAt s.delayBufferL (readPosOf s d) = none) :
    process s inL inR (n + 1) = none := by
  unfold process
  rw [hd]
  exact processLoop_none_of_first s d inL inR (processFrame_none_of_read s d _ _ h) n


theorem add_mod_ne (t k N : Nat) (hk : 0 < k) (hkN : k < N) : (t + k) % N ≠ t % N := by
  intro h
  have h1 : t + k ≡ t + 0 [MOD N] := by
    show (t + k) % N = (t + 0) % N
    rw [h, Nat.add_zero]
  have h2 : k ≡ 0 [MOD N] := Nat.ModEq.add_left_cancel' t h1
  have h3 : N ∣ k := (Nat.modEq_zero_iff_dvd).mp h2
  have := Nat.le_of_dvd hk h3
  omega

theorem echoInv_zero (f : ℚ) (D : Nat) (buf : List ℚ) (hz : ∀ x ∈ buf, x = 0) :
    EchoInv f D buf.length 0 buf := by
  refine ⟨rfl, ?_⟩
  intro i hi
  rw [Nat.zero_add, Nat.mod_eq_of_lt hi, if_pos hi, List.getElem?_eq_getElem hi]
  exact congrArg some (hz _ (List.getElem_mem _))

theorem echoInv_read (f : ℚ) (D N t : Nat) (buf : List ℚ) (h : EchoInv f D N t buf)
    (hD1 : 1 ≤ D) (hDN : D < N) :
    buf[(t % N + (N - D)) % N]? = some (echoOut f D t) := by
  rw [Nat.mod_add_mod, h.2 (N - D) (by omega)]
  unfold echoOut
  by_cases htD : t < D
  · rw [if_pos htD, if_pos (by omega)]
  · rw [if_neg htD, if_neg (by omega)]
    congr 2
    omega

theorem echoInv_step (f : ℚ) (D N t : Nat) (buf : List ℚ) (h : EchoInv f D N t buf)
    (hN : 0 < N) : EchoInv f D N (t + 1) (buf.set (t % N) (echoAt f D t)) := by
  obtain ⟨hlen, hcells⟩ := h
  refine ⟨by rw [List.length_set, hlen], ?_⟩
  intro i hi
  by_cases hlast : i = N - 1
  · have e : t + 1 + i = t + N := by omega
    rw [e, Nat.add_mod_right, if_neg (by omega), Nat.add_sub_cancel,
      List.getElem?_set_self]
    rw [hlen]
    exact Nat.mod_lt _ hN
  · have e : t + 1 + i = t + (i + 1) := by omega
    rw [e, List.getElem?_set_ne (Ne.symm (add_mod_ne t (i + 1) N (by omega) (by omega)))]
    exact hcells (i + 1) (by omega)

theorem echoAt_step (f : ℚ) (D t : Nat) (hD : 1 ≤ D) :
    impulse t + echoOut f D t * f = echoAt f D t := by
  unfold impulse echoOut echoAt
  by_cases ht0 : t = 0
  · subst ht0
    simp [Nat.pos_iff_ne_zero.mp hD, show (0 : Nat) < D from hD]
  · rw [if_neg ht0]
    by_cases htD : t < D
    · rw [if_pos htD, if_neg]
      · ring
      · intro hdvd
        have := Nat.le_of_dvd (by omega) hdvd
        omega
    · rw [if_neg htD]
      have hdvd : D ∣ t - D ↔ D ∣ t := by
        constructor
        · intro h
          have : D ∣ (t - D) + D := Dvd.dvd.add h (dvd_refl D)
          rwa [Nat.sub_add_cancel (by omega)] at this
        · intro h
          exact Nat.dvd_sub' h (dvd_refl D)
      by_cases hd : D ∣ t
      · rw [if_pos (hdvd.mpr hd), if_pos hd]
        have e : t / D = (t - D) / D + 1 := by
          obtain ⟨k, rfl⟩ := hd
          have hk : 1 ≤ k := by
            rcases k with _ | k
            · simp at ht0
            · omega
          have e1 : D * k - D = D * (k - 1) := by
            rw [Nat.mul_sub_one]
          rw [e1, Nat.mul_div_cancel_left _ (by omega), Nat.mul_div_cancel_left _ (by omega)]
          omega
        rw [e, pow_succ]
        ring
      · rw [if_neg (fun h => hd (hdvd.mp h)), if_neg hd]
        ring

theorem echoState_frame (f : ℚ) (D N t : Nat) (s : State) (h : EchoState f D N t s)
    (hD1 : 1 ≤ D) (hDN : D < N) :
    ∃ s', processFrame s (D : Int) (impulse t) (impulse t)
        = some (s', echoOut f D t, echoOut f D t)
      ∧ EchoState f D N (t + 1) s' := by
  obtain ⟨hready, hfb, hsh, hrm, hdm, hdw, hwp, hL, hR⟩ := h
  have hlenL : s.delayBufferL.length = N := hL.1
  have hlenR : s.delayBufferR.length = N := hR.1
  obtain ⟨dlL, dlR, shL, shR, yL, yR, cL, cR, hgL, hgR, hsh0, -, -, -, -, -, -, hpf, hready'⟩ :=
    processFrame_ok s D (impulse t) (impulse t) hready (by rw [hlenL]; exact hDN)
  rw [hlenL, hwp, echoInv_read f D N t _ hL hD1 hDN] at hgL
  rw [hlenL, hwp, echoInv_read f D N t _ hR hD1 hDN] at hgR
  obtain ⟨rfl, rfl⟩ := hsh0 hsh
  simp only [Option.some.injEq] at hgL hgR
  subst hgL hgR
  refine ⟨_, ?_, hready', ?_, ?_, ?_, ?_, ?_, ?_, ?_, ?_⟩
  · have e : ∀ x y : ℚ, impulse t * (1 - 1) + ((x + 0) * 1 + y * 0) * 1 = x := by
      intro x y; ring
    rw [hpf, hrm, hdm, hdw, e, e]
  · simpa [frameState] using hfb
  · simpa [frameState] using hsh
  · simpa [frameState] using hrm
  · simpa [frameState] using hdm
  · simpa [frameState] using hdw
  · simp only [frameState, hwp, hlenL]
    exact Nat.mod_add_mod t N 1
  · have := echoInv_step f D N t _ hL (by omega)
    simpa [frameState, hwp, hfb, echoAt_step f D t hD1] using this
  · have := echoInv_step f D N t _ hR (by omega)
    simpa [frameState, hwp, hfb, echoAt_step f D t hD1] using this

theorem echoState_loop (f : ℚ) (D N : Nat) (s : State) (h : EchoState f D N 0 s)
    (hD1 : 1 ≤ D) (hDN : D < N) (n : Nat) :
    ∃ s', processLoop (D : Int) impulse impulse s n
        = some (s', (List.range n).map (echoOut f D), (List.range n).map (echoOut f D))
      ∧ EchoState f D N n s' := by
  induction n with
  | zero => exact ⟨s, rfl, h⟩
  | succ n ih =>
    obtain ⟨s1, h1, hs1⟩ := ih
    obtain ⟨s2, h2, hs2⟩ := echoState_frame f D N n s1 hs1 hD1 hDN
    refine ⟨s2, ?_, hs2⟩
    simp only [processLoop, h1, h2, List.range_succ, List.map_append, List.map_cons,
      List.map_nil]

theorem delayInSamples_lt (s : State) (D : Nat)
    (hD : delayInSamples s = some (D : Int)) : D < s.delayBufferL.length := by
  unfold delayInSamples at hD
  cases h : toInt (s.delayTime / 1000 * s.sampleRate) with
  | none => rw [h] at hD; exact absurd hD (by simp)
  | some d =>
    rw [h] at hD
    simp only [Option.some.injEq] at hD
    have := min_le_right d ((s.delayBufferL.length : Int) - 1)
    omega

/-- The impulse response of the delay line with the reverb and the shimmer switched off:
from a reset engine with delay length `D ≥ 1`, frame `t` of both outputs is the sample
written `D` frames earlier. -/
theorem impulse_run (s : State) (D frames : Nat) (hs : Ready (reset s))
    (hsh : s.shimmerAmount ≤ 1 / 100) (hrm : s.reverbMix = 0) (hdm : s.delayMix = 1)
    (hdw : s.dryWet = 1) (hD : delayInSamples (reset s) = some (D : Int)) (hD1 : 1 ≤ D) :
    ∃ s', process (reset s) impulse impulse frames
      = some (s', (List.range frames).map (echoOut s.delayFeedback D),
          (List.range frames).map (echoOut s.delayFeedback D)) := by
  have hDN := delayInSamples_lt (reset s) D hD
  have h0 : EchoState s.delayFeedback D (reset s).delayBufferL.length 0 (reset s) := by
    refine ⟨hs, rfl, hsh, hrm, hdm, hdw, ?_, echoInv_zero _ _ _ (silent_reset s).1, ?_⟩
    · rw [Nat.zero_mod]; rfl
    · rw [← hs.2.1]
      exact echoInv_zero _ _ _ (silent_reset s).2.1
  obtain ⟨s', h, -⟩ := echoState_loop _ D _ (reset s) h0 hD1 hDN frames
  exact ⟨s', by simp only [process, hD, h]⟩

theorem getElem?_map_range (g : Nat → ℚ) (n t : Nat) (ht : t < n) :
    ((List.range n).map g)[t]? = some (g t) := by
  simp [List.getElem?_map, List.getElem?_range, ht]

theorem echoOut_mul (f : ℚ) (D k : Nat) (hD : 1 ≤ D) (hk : 1 ≤ k) :
    echoOut f D (k * D) = f ^ (k - 1) := by
  obtain ⟨j, rfl⟩ : ∃ j, k = j + 1 := ⟨k - 1, by omega⟩
  have e : (j + 1) * D - D = D * j := by
    rw [Nat.add_mul, Nat.one_mul, Nat.add_sub_cancel, Nat.mul_comm]
  have hlt : ¬ (j + 1) * D < D := by
    rw [Nat.add_mul, Nat.one_mul]; omega
  unfold echoOut echoAt
  rw [if_neg hlt, e, if_pos (Nat.dvd_mul_right D j), Nat.mul_div_cancel_left _ (by omega),
    Nat.add_sub_cancel]

theorem echoOut_off (f : ℚ) (D t : Nat) (h : ¬ ∃ k, 1 ≤ k ∧ t = k * D) :
    echoOut f D t = 0 := by
  unfold echoOut echoAt
  by_cases htD : t < D
  · rw [if_pos htD]
  · rw [if_neg htD, if_neg]
    rintro ⟨j, hj⟩
    exact h ⟨j + 1, by omega, by rw [Nat.add_mul, Nat.one_mul, Nat.mul_comm]; omega⟩

theorem delayInSamples_eq (s : State) (d : Int) (n : Nat) (hlen : s.delayBufferL.length = n)
    (ht : toInt (s.delayTime / 1000 * s.sampleRate) = some d) :
    delayInSamples s = some (min d ((n : Int) - 1)) := by
  unfold delayInSamples
  rw [ht, hlen]

theorem reset_delayBufferL_length (s : State) :
    (reset s).delayBufferL.length = s.delayBufferL.length := by
  simp [reset, zeroFill]

theorem ready_delayOnly (s : State) (hs : Ready s) : Ready (delayOnly s) :=
  ready_setParameter _ _ _ (ready_setParameter _ _ _ (ready_setParameter _ _ _
    (ready_setParameter _ _ _ (ready_setParameter _ _ _ hs))))

/-- C5. With feedback `f` (any value, in particular `0 < f < 1`), shimmer `0`, reverb
mix `0`, delay mix `1`, dry/wet `1`, and `D ≥ 1` the delay length in samples the engine
computes, starting from a reset well-formed engine and feeding a unit impulse at frame
`0` followed by zeros, `process` returns and its output on both channels is
`f ^ (k - 1)` at frame `k * D` for every `k ≥ 1` and `0` at every frame that is not a
positive multiple of `D`: consecutive echoes are `D` frames apart with ratio `f`. -/
theorem feedback_decay (s : State) (f : ℚ) (D frames : Nat) (hs : Ready (reset s))
    (hfb : s.delayFeedback = f) (hsh : s.shimmerAmount = 0)
    (hrm : s.reverbMix = 0) (hdm : s.delayMix = 1) (hdw : s.dryWet = 1)
    (hD : delayInSamples (reset s) = some (D : Int)) (hD1 : 1 ≤ D) :
    ∃ s' outL outR, process (reset s) impulse impulse frames = some (s', outL, outR)
      ∧ outL.length = frames ∧ outR.length = frames
      ∧ (∀ k, 1 ≤ k → k * D < frames →
          outL[k * D]? = some (f ^ (k - 1)) ∧ outR[k * D]? = some (f ^ (k - 1)))
      ∧ (∀ t < frames, (¬ ∃ k, 1 ≤ k ∧ t = k * D) →
          outL[t]? = some 0 ∧ outR[t]? = some 0) := by
  obtain ⟨s', hrun⟩ := impulse_run s D frames hs (by rw [hsh]; norm_num) hrm hdm hdw hD hD1
  refine ⟨s', _, _, hrun, by simp, by simp, ?_, ?_⟩
  · intro k hk hlt
    rw [getElem?_map_range _ _ _ hlt, hfb, echoOut_mul f D k hD1 hk]
    exact ⟨rfl, rfl⟩
  · intro t ht hno
    rw [getElem?_map_range _ _ _ ht, echoOut_off _ D t hno]
    exact ⟨rfl, rfl⟩

theorem delayOnly_constructed_length :
    (delayOnly constructed).delayBufferL.length = 88200 := by
  show (List.replicate 88200 (0 : ℚ)).length = 88200
  exact List.length_replicate _ _

theorem delayInSamples_constructed (s : State) (hlen : s.delayBufferL.length = 88200)
    (ht : toInt (s.delayTime / 1000 * s.sampleRate) = some 16537) :
    delayInSamples s = some ((16537 : Nat) : Int) := by
  rw [delayInSamples_eq s 16537 88200 hlen ht]
  rfl

/-- Witness of C5 on the constructor's state with the default feedback `0.4` and the
reverb and shimmer switched off: echoes at frames 16537, 33074, ... -/
theorem feedback_decay_witness :
    Ready (reset (setParameter (delayOnly constructed) 1 (2 / 5)))
      ∧ delayInSamples (reset (setParameter (delayOnly constructed) 1 (2 / 5)))
          = some ((16537 : Nat) : Int)
      ∧ ∃ s' outL outR,
          process (reset (setParameter (delayOnly constructed) 1 (2 / 5))) impulse impulse 40000
            = some (s', outL, outR)
          ∧ outL.length = 40000 ∧ outR.length = 40000
          ∧ (∀ k, 1 ≤ k → k * 16537 < 40000 →
              outL[k * 16537]? = some ((2 / 5 : ℚ) ^ (k - 1))
                ∧ outR[k * 16537]? = some ((2 / 5 : ℚ) ^ (k - 1)))
          ∧ (∀ t < 40000, (¬ ∃ k, 1 ≤ k ∧ t = k * 16537) →
              outL[t]? = some 0 ∧ outR[t]? = some 0) :=
  ⟨ready_reset _ (ready_setParameter _ _ _ (ready_delayOnly _ ready_constructed)),
    delayInSamples_constructed _
      (by rw [reset_delayBufferL_length]; exact delayOnly_constructed_length) (by decide!),
    feedback_decay (setParameter (delayOnly constructed) 1 (2 / 5)) (2 / 5) 16537 40000
      (ready_reset _ (ready_setParameter _ _ _ (ready_delayOnly _ ready_constructed)))
      rfl rfl rfl rfl rfl
      (delayInSamples_constructed _
        (by rw [reset_delayBufferL_length]; exact delayOnly_constructed_length) (by decide!))
      (by decide)⟩

/-! ## Channel independence -/

theorem combLoop_inv (input roomSize damping : ℚ) :
    ∀ (bufs : List (List ℚ)) (ps : List Nat) (acc : ℚ) (bufs' : List (List ℚ))
      (ps' : List Nat) (out : ℚ),
      combLoop input roomSize damping acc bufs ps = some (bufs', ps', out) →
      cursorsOK bufs ps = true ∧ bufs'.map List.length = bufs.map List.length
        ∧ ps' = advanceCursors bufs ps := by
  intro bufs
  induction bufs with
  | nil =>
    intro ps acc bufs' ps' out h
    simp only [combLoop, Option.some.injEq, Prod.mk.injEq] at h
    obtain ⟨rfl, rfl, -⟩ := h
    exact ⟨rfl, rfl, rfl⟩
  | cons buffer bufs ih =>
    intro ps acc bufs' ps' out h
    cases ps with
    | nil => simp [combLoop] at h
    | cons pos ps =>
      simp only [combLoop] at h
      cases hg : buffer[pos]? with
      | none => rw [hg] at h; exact absurd h (by simp)
      | some delayed =>
        rw [hg] at h
        simp only [] at h
        cases hr : combLoop input roomSize damping (acc + delayed) bufs ps with
        | none => rw [hr] at h; exact absurd h (by simp)
        | some r =>
          obtain ⟨b1, p1, o1⟩ := r
          rw [hr] at h
          simp only [Option.some.injEq, Prod.mk.injEq] at h
          obtain ⟨rfl, rfl, -⟩ := h
          obtain ⟨hc, hl, hp⟩ := ih ps _ b1 p1 o1 hr
          have hpos : pos < buffer.length := (List.getElem?_eq_some.mp hg).1
          refine ⟨?_, ?_, ?_⟩
          · simp only [cursorsOK, Bool.and_eq_true, decide_eq_true_eq]
            exact ⟨hpos, hc⟩
          · simp [hl]
          · simp [advanceCursors, hp]

theorem allpassLoop_inv :
    ∀ (bufs : List (List ℚ)) (ps : List Nat) (x : ℚ) (bufs' : List (List ℚ))
      (ps' : List Nat) (out : ℚ),
      allpassLoop x bufs ps = some (bufs', ps', out) →
      cursorsOK bufs ps = true ∧ bufs'.map List.length = bufs.map List.length
        ∧ ps' = advanceCursors bufs ps := by
  intro bufs
  induction bufs with
  | nil =>
    intro ps x bufs' ps' out h
    simp only [allpassLoop, Option.some.injEq, Prod.mk.injEq] at h
    obtain ⟨rfl, rfl, -⟩ := h
    exact ⟨rfl, rfl, rfl⟩
  | cons buffer bufs ih =>
    intro ps x bufs' ps' out h
    cases ps with
    | nil => simp [allpassLoop] at h
    | cons pos ps =>
      simp only [allpassLoop] at h
      cases hg : buffer[pos]? with
      | none => rw [hg] at h; exact absurd h (by simp)
      | some delayed =>
        rw [hg] at h
        simp only [] at h
        cases hr : allpassLoop (delayed - x * (1 / 2)) bufs ps with
        | none => rw [hr] at h; exact absurd h (by simp)
        | some r =>
          obtain ⟨b1, p1, o1⟩ := r
          rw [hr] at h
          simp only [Option.some.injEq, Prod.mk.injEq] at h
          obtain ⟨rfl, rfl, -⟩ := h
          obtain ⟨hc, hl, hp⟩ := ih ps _ b1 p1 o1 hr
          have hpos : pos < buffer.length := (List.getElem?_eq_some.mp hg).1
          refine ⟨?_, ?_, ?_⟩
          · simp only [cursorsOK, Bool.and_eq_true, decide_eq_true_eq]
            exact ⟨hpos, hc⟩
          · simp [hl]
          · simp [advanceCursors, hp]

theorem cursorsOK_shape :
    ∀ (bufs bufs' : List (List ℚ)) (ps : List Nat),
      bufs'.map List.length = bufs.map List.length → cursorsOK bufs' ps = cursorsOK bufs ps := by
  intro bufs
  induction bufs with
  | nil =>
    intro bufs' ps h
    have : bufs' = [] := by simpa using h
    rw [this]
  | cons b bufs ih =>
    intro bufs' ps h
    cases bufs' with
    | nil => simp at h
    | cons b' bufs' =>
      simp only [List.map_cons, List.cons.injEq] at h
      cases ps with
      | nil => rfl
      | cons p ps => simp only [cursorsOK, h.1, ih bufs' ps h.2]

theorem advanceCursors_shape :
    ∀ (bufs bufs' : List (List ℚ)) (ps : List Nat),
      bufs'.map List.length = bufs.map List.length →
      advanceCursors bufs' ps = advanceCursors bufs ps := by
  intro bufs
  induction bufs with
  | nil =>
    intro bufs' ps h
    have : bufs' = [] := by simpa using h
    rw [this]
  | cons b bufs ih =>
    intro bufs' ps h
    cases bufs' with
    | nil => simp at h
    | cons b' bufs' =>
      simp only [List.map_cons, List.cons.injEq] at h
      cases ps with
      | nil => rfl
      | cons p ps => simp only [advanceCursors, h.1, ih bufs' ps h.2]

theorem reverbChannel_inv (reverbSize input : ℚ) (c c' : Channel) (y : ℚ)
    (h : reverbChannel reverbSize input c = some (c', y)) :
    c.ok ∧ c'.shape = (c.combBuffers.map List.length, advanceCursors c.combBuffers c.combPos,
      c.allpassBuffers.map List.length, advanceCursors c.allpassBuffers c.allpassPos) := by
  unfold reverbChannel at h
  cases h1 : combLoop input (28 / 100 + reverbSize * (7 / 10)) (1 / 2) 0 c.combBuffers
      c.combPos with
  | none => rw [h1] at h; exact absurd h (by simp)
  | some r =>
    obtain ⟨cb, cp, sum⟩ := r
    rw [h1] at h
    simp only [] at h
    split at h
    · exact absurd h (by simp)
    · rename_i hne
      cases h2 : allpassLoop (sum / (c.combBuffers.length : ℚ)) c.allpassBuffers
          c.allpassPos with
      | none => rw [h2] at h; exact absurd h (by simp)
      | some r =>
        obtain ⟨ab, ap, out⟩ := r
        rw [h2] at h
        simp only [Option.some.injEq, Prod.mk.injEq] at h
        obtain ⟨rfl, -⟩ := h
        obtain ⟨hc1, hl1, hp1⟩ := combLoop_inv _ _ _ _ _ _ _ _ _ h1
        obtain ⟨hc2, hl2, hp2⟩ := allpassLoop_inv _ _ _ _ _ _ h2
        refine ⟨⟨?_, hc1, hc2⟩, ?_⟩
        · intro h0; apply hne; rw [h0]; rfl
        · simp only [Channel.shape, hl1, hl2, hp1, hp2]

theorem channel_ok_shape (c c' : Channel) (h : c'.shape = c.shape) (hc : c.ok) : c'.ok := by
  simp only [Channel.shape, Prod.mk.injEq] at h
  obtain ⟨h1, h2, h3, h4⟩ := h
  obtain ⟨hne, hc1, hc2⟩ := hc
  refine ⟨?_, ?_, ?_⟩
  · intro h0
    rw [h0] at h1
    exact hne (by simpa using h1.symm)
  · rw [h2, cursorsOK_shape _ _ _ h1]; exact hc1
  · rw [h4, cursorsOK_shape _ _ _ h3]; exact hc2

/-- Whether `processReverb` succeeds on a channel, and the shape it leaves, depend only
on the shape of the channel, not on the samples or the input. -/
theorem reverbChannel_sim (rs rs' x x' : ℚ) (c c' c1 : Channel) (y : ℚ)
    (hshape : c'.shape = c.shape) (h : reverbChannel rs x c = some (c1, y)) :
    ∃ c1' y', reverbChannel rs' x' c' = some (c1', y') ∧ c1'.shape = c1.shape := by
  obtain ⟨hok, hs1⟩ := reverbChannel_inv rs x c c1 y h
  obtain ⟨c1', y', h', -, -, -⟩ := reverbChannel_ok rs' x' c' (channel_ok_shape c c' hshape hok)
  obtain ⟨-, hs1'⟩ := reverbChannel_inv rs' x' c' c1' y' h'
  refine ⟨c1', y', h', ?_⟩
  rw [hs1, hs1']
  simp only [Channel.shape, Prod.mk.injEq] at hshape
  obtain ⟨h1, h2, h3, h4⟩ := hshape
  rw [h1, h2, h3, h4, advanceCursors_shape _ _ _ h1, advanceCursors_shape _ _ _ h3]

theorem processReverb_left_inv (s s1 : State) (x y : ℚ)
    (h : processReverb s x true = some (s1, y)) :
    ∃ c, reverbChannel s.reverbSize x s.left = some (c, y)
      ∧ s1 = { s with
               combBuffersL := c.combBuffers, combPosL := c.combPos,
               allpassBuffersL := c.allpassBuffers, allpassPosL := c.allpassPos } := by
  simp only [processReverb, if_true] at h
  cases hr : reverbChannel s.reverbSize x s.left with
  | none => rw [hr] at h; exact absurd h (by simp)
  | some r =>
    obtain ⟨c, y'⟩ := r
    rw [hr] at h
    simp only [Option.some.injEq, Prod.mk.injEq] at h
    obtain ⟨rfl, rfl⟩ := h
    exact ⟨c, rfl, rfl⟩

theorem processReverb_right_inv (s s1 : State) (x y : ℚ)
    (h : processReverb s x false = some (s1, y)) :
    ∃ c, reverbChannel s.reverbSize x s.right = some (c, y)
      ∧ s1 = { s with
               combBuffersR := c.combBuffers, combPosR := c.combPos,
               allpassBuffersR := c.allpassBuffers, allpassPosR := c.allpassPos } := by
  simp only [processReverb, Bool.false_eq_true, if_false] at h
  cases hr : reverbChannel s.reverbSize x s.right with
  | none => rw [hr] at h; exact absurd h (by simp)
  | some r =>
    obtain ⟨c, y'⟩ := r
    rw [hr] at h
    simp only [Option.some.injEq, Prod.mk.injEq] at h
    obtain ⟨rfl, rfl⟩ := h
    exact ⟨c, rfl, rfl⟩

/-- What a successful frame did: the converse of `processFrame_eq`. -/
theorem processFrame_inv (s : State) (d : Int) (xL xR : ℚ) (r : State × ℚ × ℚ)
    (h : processFrame s d xL xR = some r) :
    ∃ dlL dlR shL shR yL yR cL cR,
      getAt s.delayBufferL (readPosOf s d) = some dlL
      ∧ getAt s.delayBufferR (readPosOf s d) = some dlR
      ∧ shimmerOf s (readPosOf s d) = some (shL, shR)
      ∧ reverbChannel s.reverbSize (dlL + shL) s.left = some (cL, yL)
      ∧ reverbChannel s.reverbSize (dlR + shR) s.right = some (cR, yR)
      ∧ s.writePos < s.delayBufferL.length ∧ s.writePos < s.delayBufferR.length
      ∧ r = (frameState s cL cR (xL + dlL * s.delayFeedback) (xR + dlR * s.delayFeedback),
          xL * (1 - s.dryWet) + ((dlL + shL) * s.delayMix + yL * s.reverbMix) * s.dryWet,
          xR * (1 - s.dryWet) + ((dlR + shR) * s.delayMix + yR * s.reverbMix) * s.dryWet) := by
  unfold processFrame at h
  cases h1 : getAt s.delayBufferL (readPosOf s d) with
  | none => rw [h1] at h; exact absurd h (by simp)
  | some dlL =>
    cases h2 : getAt s.delayBufferR (readPosOf s d) with
    | none => rw [h1, h2] at h; exact absurd h (by simp)
    | some dlR =>
      rw [h1, h2] at h
      simp only [] at h
      cases h3 : shimmerOf s (readPosOf s d) with
      | none => rw [h3] at h; exact absurd h (by simp)
      | some sh =>
        obtain ⟨shL, shR⟩ := sh
        rw [h3] at h
        simp only [] at h
        cases h4 : processReverb s (dlL + shL) true with
        | none => rw [h4] at h; exact absurd h (by simp)
        | some r1 =>
          obtain ⟨s1, yL⟩ := r1
          rw [h4] at h
          simp only [] at h
          obtain ⟨cL, hcL, rfl⟩ := processReverb_left_inv s s1 _ yL h4
          cases h5 : processReverb
              { s with
                combBuffersL := cL.combBuffers, combPosL := cL.combPos,
                allpassBuffersL := cL.allpassBuffers, allpassPosL := cL.allpassPos }
              (dlR + shR) false with
          | none => rw [h5] at h; exact absurd h (by simp)
          | some r2 =>
            obtain ⟨s2, yR⟩ := r2
            rw [h5] at h
            simp only [] at h
            obtain ⟨cR, hcR, rfl⟩ := processReverb_right_inv _ s2 _ yR h5
            split at h
            · rename_i hw
              simp only [Option.some.injEq] at h
              exact ⟨dlL, dlR, shL, shR, yL, yR, cL, cR, rfl, rfl, rfl, hcL, hcR, hw.1, hw.2,
                h.symm⟩
            · exact absurd h (by simp)

theorem getAt_some_of_length (l l' : List ℚ) (i : Int) (v : ℚ)
    (hlen : l'.length = l.length) (h : getAt l i = some v) : ∃ v', getAt l' i = some v' := by
  unfold getAt at *
  by_cases hi : 0 ≤ i
  · rw [if_pos hi] at h ⊢
    have hlt : i.toNat < l.length := (List.getElem?_eq_some.mp h).1
    exact ⟨_, List.getElem?_eq_getElem (by rw [hlen]; exact hlt)⟩
  · rw [if_neg hi] at h
    exact absurd h (by simp)

theorem shimmerOf_sim_right (s t : State) (r : Int) (shL shR : ℚ)
    (ha : t.shimmerAmount = s.shimmerAmount) (hsr : t.sampleRate = s.sampleRate)
    (hlen : t.delayBufferL.length = s.delayBufferL.length)
    (hR : t.delayBufferR = s.delayBufferR) (h : shimmerOf s r = some (shL, shR)) :
    ∃ shL', shimmerOf t r = some (shL', shR) := by
  unfold shimmerOf shimmerReadPosOf at *
  rw [ha, hsr, hlen, hR]
  by_cases hamt : s.shimmerAmount > 1 / 100
  · rw [if_pos hamt] at h ⊢
    cases hk : toInt (s.sampleRate * (1 / 100)) with
    | none => rw [hk] at h; exact absurd h (by simp)
    | some k =>
      rw [hk] at h
      simp only [] at h ⊢
      cases ha1 : getAt s.delayBufferL
          (if r - k < 0 then r - k + (s.delayBufferL.length : Int) else r - k) with
      | none => rw [ha1] at h; exact absurd h (by simp)
      | some a =>
        cases hb1 : getAt s.delayBufferR
            (if r - k < 0 then r - k + (s.delayBufferL.length : Int) else r - k) with
        | none => rw [ha1, hb1] at h; exact absurd h (by simp)
        | some b =>
          rw [ha1, hb1] at h
          simp only [Option.some.injEq, Prod.mk.injEq] at h
          obtain ⟨a', ha'⟩ := getAt_some_of_length _ t.delayBufferL _ a hlen ha1
          rw [ha']
          exact ⟨a' * s.shimmerAmount, by rw [← h.2]⟩
  · rw [if_neg hamt] at h ⊢
    simp only [Option.some.injEq, Prod.mk.injEq] at h
    exact ⟨0, by rw [← h.2]⟩

/-- One frame from two states that agree on the right channel: if it succeeds on one it
succeeds on the other, whatever the left inputs, with the same right output and states
that still agree on the right channel. -/
theorem processFrame_sim_right (s t : State) (d : Int) (xL xL' xR : ℚ) (r : State × ℚ × ℚ)
    (hst : RightEq s t) (h : processFrame s d xL xR = some r) :
    ∃ r', processFrame t d xL' xR = some r' ∧ RightEq r.1 r'.1 ∧ r'.2.2 = r.2.2 := by
  obtain ⟨dlL, dlR, shL, shR, yL, yR, cL, cR, h1, h2, h3, h4, h5, h6, h7, rfl⟩ :=
    processFrame_inv s d xL xR r h
  obtain ⟨hp, hw, hbR, hright, hlen, hshape⟩ := hst
  have hp' := hp
  obtain ⟨p1, p2, p3, p4, p5, p6, p7, p8, p9, p10⟩ := hp'
  have hrp : readPosOf t d = readPosOf s d := by
    unfold readPosOf; rw [hw, hlen]
  obtain ⟨dlL', h1'⟩ := getAt_some_of_length _ t.delayBufferL _ dlL hlen h1
  obtain ⟨shL', h3'⟩ := shimmerOf_sim_right s t (readPosOf s d) shL shR p6 p9 hlen hbR h3
  obtain ⟨cL', yL', h4', hsh'⟩ :=
    reverbChannel_sim s.reverbSize t.reverbSize (dlL + shL) (dlL' + shL') s.left t.left cL yL
      hshape h4
  have hpf := processFrame_eq t d xL' xR dlL' dlR shL' shR yL' yR cL' cR
    (by rw [hrp]; exact h1') (by rw [hrp, hbR]; exact h2) (by rw [hrp]; exact h3') h4'
    (by rw [p4, hright]; exact h5) (by rw [hw, hlen]; exact h6) (by rw [hw, hbR]; exact h7)
  refine ⟨_, hpf, ?_, ?_⟩
  · refine ⟨?_, ?_, ?_, ?_, ?_, ?_⟩
    · simpa [SameParams, frameState] using hp
    · simp only [frameState, hw, hlen]
    · simp only [frameState, hw, hbR, p2]
    · simp only [frameState, State.right]
    · simp only [frameState, List.length_set, hlen]
    · simpa [frameState, State.left, Channel.shape] using hsh'
  · simp only [p8, p3, p5]

theorem rightEq_refl (s : State) : RightEq s s :=
  ⟨⟨rfl, rfl, rfl, rfl, rfl, rfl, rfl, rfl, rfl, rfl⟩, rfl, rfl, rfl, rfl, rfl⟩

theorem processLoop_sim_right (d : Int) (inL inL' inR : Nat → ℚ) (s t : State)
    (hst : RightEq s t) (n : Nat) :
    ∀ r, processLoop d inL inR s n = some r →
      ∃ r', processLoop d inL' inR t n = some r' ∧ RightEq r.1 r'.1 ∧ r'.2.2 = r.2.2 := by
  induction n with
  | zero =>
    intro r h
    simp only [processLoop, Option.some.injEq] at h
    subst h
    exact ⟨(t, [], []), rfl, hst, rfl⟩
  | succ n ih =>
    intro r h
    simp only [processLoop] at h
    cases h1 : processLoop d inL inR s n with
    | none => rw [h1] at h; exact absurd h (by simp)
    | some r1 =>
      obtain ⟨s1, oL1, oR1⟩ := r1
      rw [h1] at h
      simp only [] at h
      cases h2 : processFrame s1 d (inL n) (inR n) with
      | none => rw [h2] at h; exact absurd h (by simp)
      | some r2 =>
        obtain ⟨s2, a, b⟩ := r2
        rw [h2] at h
        simp only [Option.some.injEq] at h
        subst h
        obtain ⟨⟨t1, oL1', oR1'⟩, h1', he1, ho1⟩ := ih _ h1
        obtain ⟨⟨t2, a', b'⟩, h2', he2, ho2⟩ :=
          processFrame_sim_right s1 t1 d (inL n) (inL' n) (inR n) _ he1 h2
        refine ⟨(t2, oL1' ++ [a'], oR1' ++ [b']), ?_, he2, ?_⟩
        · simp only [processLoop, h1', h2']
        · simp only at ho1 ho2 ⊢
          rw [ho1, ho2]

theorem option_map_eq_of_sim {α β : Type} (a b : Option α) (f : α → β)
    (h1 : ∀ x, a = some x → ∃ y, b = some y ∧ f y = f x)
    (h2 : ∀ y, b = some y → ∃ x, a = some x ∧ f x = f y) : a.map f = b.map f := by
  cases a with
  | none =>
    cases b with
    | none => rfl
    | some y =>
      obtain ⟨x, hx, -⟩ := h2 y rfl
      exact absurd hx (by simp)
  | some x =>
    obtain ⟨y, hy, hf⟩ := h1 x rfl
    rw [hy, Option.map_some', Option.map_some', hf]

theorem rightPart_eq (r r' : State × List ℚ × List ℚ) (h : RightEq r.1 r'.1)
    (ho : r'.2.2 = r.2.2) : rightPart r' = rightPart r := by
  obtain ⟨-, hw, hb, hr, -, -⟩ := h
  simp only [rightPart, ho, hb, hr, hw]

theorem process_right_independent (s : State) (inL inL' inR : Nat → ℚ) (n : Nat) :
    (process s inL inR n).map rightPart = (process s inL' inR n).map rightPart := by
  unfold process
  cases hd : delayInSamples s with
  | none => rfl
  | some d =>
    simp only []
    apply option_map_eq_of_sim
    · intro r h
      obtain ⟨r', h', he, ho⟩ := processLoop_sim_right d inL inL' inR s s (rightEq_refl s) n r h
      exact ⟨r', h', rightPart_eq r r' he ho⟩
    · intro r' h'
      obtain ⟨r, h, he, ho⟩ := processLoop_sim_right d inL' inL inR s s (rightEq_refl s) n r' h'
      exact ⟨r, h, (rightPart_eq r' r he ho)⟩

theorem shimmerOf_sim_left (s t : State) (r : Int) (shL shR : ℚ)
    (ha : t.shimmerAmount = s.shimmerAmount) (hsr : t.sampleRate = s.sampleRate)
    (hL : t.delayBufferL = s.delayBufferL)
    (hlen : t.delayBufferR.length = s.delayBufferR.length)
    (h : shimmerOf s r = some (shL, shR)) :
    ∃ shR', shimmerOf t r = some (shL, shR') := by
  unfold shimmerOf shimmerReadPosOf at *
  rw [ha, hsr, hL]
  by_cases hamt : s.shimmerAmount > 1 / 100
  · rw [if_pos hamt] at h ⊢
    cases hk : toInt (s.sampleRate * (1 / 100)) with
    | none => rw [hk] at h; exact absurd h (by simp)
    | some k =>
      rw [hk] at h
      simp only [] at h ⊢
      cases ha1 : getAt s.delayBufferL
          (if r - k < 0 then r - k + (s.delayBufferL.length : Int) else r - k) with
      | none => rw [ha1] at h; exact absurd h (by simp)
      | some a =>
        cases hb1 : getAt s.delayBufferR
            (if r - k < 0 then r - k + (s.delayBufferL.length : Int) else r - k) with
        | none => rw [ha1, hb1] at h; exact absurd h (by simp)
        | some b =>
          rw [ha1, hb1] at h
          simp only [Option.some.injEq, Prod.mk.injEq] at h
          obtain ⟨b', hb'⟩ := getAt_some_of_length _ t.delayBufferR _ b hlen hb1
          rw [hb']
          exact ⟨b' * s.shimmerAmount, by rw [← h.1]⟩
  · rw [if_neg hamt] at h ⊢
    simp only [Option.some.injEq, Prod.mk.injEq] at h
    exact ⟨0, by rw [← h.1]⟩

/-- One frame from two states that agree on the left channel: the mirror image of
`processFrame_sim_right`. -/
theorem processFrame_sim_left (s t : State) (d : Int) (xL xR xR' : ℚ) (r : State × ℚ × ℚ)
    (hst : LeftEq s t) (h : processFrame s d xL xR = some r) :
    ∃ r', processFrame t d xL xR' = some r' ∧ LeftEq r.1 r'.1 ∧ r'.2.1 = r.2.1 := by
  obtain ⟨dlL, dlR, shL, shR, yL, yR, cL, cR, h1, h2, h3, h4, h5, h6, h7, rfl⟩ :=
    processFrame_inv s d xL xR r h
  obtain ⟨hp, hw, hbL, hleft, hlen, hshape⟩ := hst
  have hp' := hp
  obtain ⟨p1, p2, p3, p4, p5, p6, p7, p8, p9, p10⟩ := hp'
  have hrp : readPosOf t d = readPosOf s d := by
    unfold readPosOf; rw [hw, hbL]
  obtain ⟨dlR', h2'⟩ := getAt_some_of_length _ t.delayBufferR _ dlR hlen h2
  obtain ⟨shR', h3'⟩ := shimmerOf_sim_left s t (readPosOf s d) shL shR p6 p9 hbL hlen h3
  obtain ⟨cR', yR', h5', hsh'⟩ :=
    reverbChannel_sim s.reverbSize t.reverbSize (dlR + shR) (dlR' + shR') s.right t.right cR yR
      hshape h5
  have hpf := processFrame_eq t d xL xR' dlL dlR' shL shR' yL yR' cL cR'
    (by rw [hrp, hbL]; exact h1) (by rw [hrp]; exact h2') (by rw [hrp]; exact h3')
    (by rw [p4, hleft]; exact h4) h5' (by rw [hw, hbL]; exact h6) (by rw [hw, hlen]; exact h7)
  refine ⟨_, hpf, ?_, ?_⟩
  · refine ⟨?_, ?_, ?_, ?_, ?_, ?_⟩
    · simpa [SameParams, frameState] using hp
    · simp only [frameState, hw, hbL]
    · simp only [frameState, hw, hbL, p2]
    · simp only [frameState, State.left]
    · simp only [frameState, List.length_set, hlen]
    · simpa [frameState, State.right, Channel.shape] using hsh'
  · simp only [p8, p3, p5]

theorem leftEq_refl (s : State) : LeftEq s s :=
  ⟨⟨rfl, rfl, rfl, rfl, rfl, rfl, rfl, rfl, rfl, rfl⟩, rfl, rfl, rfl, rfl, rfl⟩

theorem processLoop_sim_left (d : Int) (inL inR inR' : Nat → ℚ) (s t : State)
    (hst : LeftEq s t) (n : Nat) :
    ∀ r, processLoop d inL inR s n = some r →
      ∃ r', processLoop d inL inR' t n = some r' ∧ LeftEq r.1 r'.1 ∧ r'.2.1 = r.2.1 := by
  induction n with
  | zero =>
    intro r h
    simp only [processLoop, Option.some.injEq] at h
    subst h
    exact ⟨(t, [], []), rfl, hst, rfl⟩
  | succ n ih =>
    intro r h
    simp only [processLoop] at h
    cases h1 : processLoop d inL inR s n with
    | none => rw [h1] at h; exact absurd h (by simp)
    | some r1 =>
      obtain ⟨s1, oL1, oR1⟩ := r1
      rw [h1] at h
      simp only [] at h
      cases h2 : processFrame s1 d (inL n) (inR n) with
      | none => rw [h2] at h; exact absurd h (by simp)
      | some r2 =>
        obtain ⟨s2, a, b⟩ := r2
        rw [h2] at h
        simp only [Option.some.injEq] at h
        subst h
        obtain ⟨⟨t1, oL1', oR1'⟩, h1', he1, ho1⟩ := ih _ h1
        obtain ⟨⟨t2, a', b'⟩, h2', he2, ho2⟩ :=
          processFrame_sim_left s1 t1 d (inL n) (inR n) (inR' n) _ he1 h2
        refine ⟨(t2, oL1' ++ [a'], oR1' ++ [b']), ?_, he2, ?_⟩
        · simp only [processLoop, h1', h2']
        · simp only at ho1 ho2 ⊢
          rw [ho1, ho2]

theorem leftPart_eq (r r' : State × List ℚ × List ℚ) (h : LeftEq r.1 r'.1)
    (ho : r'.2.1 = r.2.1) : leftPart r' = leftPart r := by
  obtain ⟨-, hw, hb, hr, -, -⟩ := h
  simp only [leftPart, ho, hb, hr, hw]

theorem process_left_independent (s : State) (inL inR inR' : Nat → ℚ) (n : Nat) :
    (process s inL inR n).map leftPart = (process s inL inR' n).map leftPart := by
  unfold process
  cases hd : delayInSamples s with
  | none => rfl
  | some d =>
    simp only []
    apply option_map_eq_of_sim
    · intro r h
      obtain ⟨r', h', he, ho⟩ := processLoop_sim_left d inL inR inR' s s (leftEq_refl s) n r h
      exact ⟨r', h', leftPart_eq r r' he ho⟩
    · intro r' h'
      obtain ⟨r, h, he, ho⟩ := processLoop_sim_left d inL inR' inR s s (leftEq_refl s) n r' h'
      exact ⟨r, h, (leftPart_eq r' r he ho)⟩

/-- C7. For any two runs of `process` from the same state with the same frame count and
the same right input but arbitrary left inputs, the right output, the right delay, comb
and allpass buffers, their cursors and the write position coincide (and the two runs
fault together); symmetrically with left and right exchanged. -/
theorem channel_independence (s : State) (inL inL' inR inR' : Nat → ℚ) (frames : Nat) :
    (process s inL inR frames).map rightPart = (process s inL' inR frames).map rightPart
      ∧ (process s inL inR frames).map leftPart
          = (process s inL inR' frames).map leftPart :=
  ⟨process_right_independent s inL inL' inR frames,
    process_left_independent s inL inR inR' frames⟩

/-! ## Stability of the reverb -/

theorem mem_set_bound {b : List ℚ} {K v : ℚ} (hb : ∀ x ∈ b, |x| ≤ K) (hv : |v| ≤ K) (i : Nat) :
    ∀ x ∈ b.set i v, |x| ≤ K := by
  intro x hx
  rcases List.mem_or_eq_of_mem_set hx with h | h
  · exact hb x h
  · rw [h]; exact hv

theorem combLoop_bound (input roomSize damping K : ℚ)
    (hw : ∀ v : ℚ, |v| ≤ K → |input + (v * damping) * roomSize| ≤ K) :
    ∀ (bufs : List (List ℚ)) (ps : List Nat) (acc : ℚ) (bufs' : List (List ℚ))
      (ps' : List Nat) (out : ℚ), bankBound K bufs →
      combLoop input roomSize damping acc bufs ps = some (bufs', ps', out) →
      bankBound K bufs' ∧ |out - acc| ≤ (bufs.length : ℚ) * K := by
  intro bufs
  induction bufs with
  | nil =>
    intro ps acc bufs' ps' out _ h
    simp only [combLoop, Option.some.injEq, Prod.mk.injEq] at h
    obtain ⟨rfl, -, rfl⟩ := h
    exact ⟨by intro b hb; simp at hb, by simp⟩
  | cons buffer bufs ih =>
    intro ps acc bufs' ps' out hK h
    cases ps with
    | nil => simp [combLoop] at h
    | cons pos ps =>
      have hb : ∀ x ∈ buffer, |x| ≤ K := hK buffer (List.mem_cons_self _ _)
      have hrest : bankBound K bufs := fun b hb => hK b (List.mem_cons_of_mem _ hb)
      simp only [combLoop] at h
      cases hg : buffer[pos]? with
      | none => rw [hg] at h; exact absurd h (by simp)
      | some delayed =>
        have hd : |delayed| ≤ K := hb delayed (List.getElem?_mem hg)
        rw [hg] at h
        simp only [] at h
        cases hr : combLoop input roomSize damping (acc + delayed) bufs ps with
        | none => rw [hr] at h; exact absurd h (by simp)
        | some r =>
          obtain ⟨b1, p1, o1⟩ := r
          rw [hr] at h
          simp only [Option.some.injEq, Prod.mk.injEq] at h
          obtain ⟨rfl, -, rfl⟩ := h
          obtain ⟨hK1, ho⟩ := ih ps (acc + delayed) b1 p1 o1 hrest hr
          refine ⟨?_, ?_⟩
          · intro b hb'
            rcases List.mem_cons.mp hb' with rfl | hb'
            · exact mem_set_bound hb (hw delayed hd) pos
            · exact hK1 b hb'
          · have e : o1 - acc = (o1 - (acc + delayed)) + delayed := by ring
            rw [e]
            calc |o1 - (acc + delayed) + delayed|
                ≤ |o1 - (acc + delayed)| + |delayed| := abs_add _ _
              _ ≤ (bufs.length : ℚ) * K + K := add_le_add ho hd
              _ = ((buffer :: bufs).length : ℚ) * K := by
                  rw [List.length_cons]; push_cast; ring

theorem allpassLoop_bound :
    ∀ (bufs : List (List ℚ)) (ps : List Nat) (x Y : ℚ) (bufs' : List (List ℚ))
      (ps' : List Nat) (out : ℚ), |x| ≤ Y → allpassBound Y bufs →
      allpassLoop x bufs ps = some (bufs', ps', out) →
      allpassBound Y bufs' ∧ |out| ≤ (5 / 2) ^ bufs.length * Y := by
  intro bufs
  induction bufs with
  | nil =>
    intro ps x Y bufs' ps' out hx _ h
    simp only [allpassLoop, Option.some.injEq, Prod.mk.injEq] at h
    obtain ⟨rfl, -, rfl⟩ := h
    exact ⟨trivial, by simpa using hx⟩
  | cons buffer bufs ih =>
    intro ps x Y bufs' ps' out hx hY h
    cases ps with
    | nil => simp [allpassLoop] at h
    | cons pos ps =>
      obtain ⟨hb, hrest⟩ := hY
      simp only [allpassLoop] at h
      cases hg : buffer[pos]? with
      | none => rw [hg] at h; exact absurd h (by simp)
      | some delayed =>
        have hd : |delayed| ≤ 2 * Y := hb delayed (List.getElem?_mem hg)
        rw [hg] at h
        simp only [] at h
        cases hr : allpassLoop (delayed - x * (1 / 2)) bufs ps with
        | none => rw [hr] at h; exact absurd h (by simp)
        | some r =>
          obtain ⟨b1, p1, o1⟩ := r
          rw [hr] at h
          simp only [Option.some.injEq, Prod.mk.injEq] at h
          obtain ⟨rfl, -, rfl⟩ := h
          have hx2 : |x * (1 / 2)| ≤ Y / 2 := by
            rw [abs_mul, abs_of_pos (by norm_num : (0 : ℚ) < 1 / 2)]
            linarith
          have hd2 : |delayed * (1 / 2)| ≤ Y := by
            rw [abs_mul, abs_of_pos (by norm_num : (0 : ℚ) < 1 / 2)]
            linarith
          have hnext : |delayed - x * (1 / 2)| ≤ 5 / 2 * Y := by
            calc |delayed - x * (1 / 2)| ≤ |delayed| + |x * (1 / 2)| := abs_sub _ _
              _ ≤ 2 * Y + Y / 2 := add_le_add hd hx2
              _ = 5 / 2 * Y := by ring
          have hcell : |x + delayed * (1 / 2)| ≤ 2 * Y := by
            calc |x + delayed * (1 / 2)| ≤ |x| + |delayed * (1 / 2)| := abs_add _ _
              _ ≤ Y + Y := add_le_add hx hd2
              _ = 2 * Y := by ring
          obtain ⟨hY1, ho⟩ := ih ps _ (5 / 2 * Y) b1 p1 o1 hnext hrest hr
          refine ⟨⟨mem_set_bound hb hcell pos, hY1⟩, ?_⟩
          calc |o1| ≤ (5 / 2) ^ bufs.length * (5 / 2 * Y) := ho
            _ = (5 / 2) ^ (buffer :: bufs).length * Y := by
                rw [List.length_cons, pow_succ]; ring

theorem allpassBound_zero (bufs : List (List ℚ)) (hz : bankZero bufs) :
    ∀ Y : ℚ, 0 ≤ Y → allpassBound Y bufs := by
  induction bufs with
  | nil => intro Y _; trivial
  | cons b bufs ih =>
    intro Y hY
    refine ⟨?_, ih (fun b' hb' => hz b' (List.mem_cons_of_mem _ hb')) _ (by linarith)⟩
    intro x hx
    rw [hz b (List.mem_cons_self _ _) x hx, abs_zero]
    linarith

theorem bankBound_zero (bufs : List (List ℚ)) (hz : bankZero bufs) (K : ℚ) (hK : 0 ≤ K) :
    bankBound K bufs := by
  intro b hb x hx
  rw [hz b hb x hx, abs_zero]
  exact hK

theorem comb_write_bound (rs input M v : ℚ) (h0 : 0 ≤ rs) (h1 : rs ≤ 1) (hin : |input| ≤ M)
    (hv : |v| ≤ 2 * M) : |input + (v * (1 / 2)) * (28 / 100 + rs * (7 / 10))| ≤ 2 * M := by
  have hroom0 : 0 ≤ 28 / 100 + rs * (7 / 10) := by linarith
  have hroom1 : 28 / 100 + rs * (7 / 10) ≤ 1 := by linarith
  have hv0 : 0 ≤ |v| := abs_nonneg v
  have hfb : |(v * (1 / 2)) * (28 / 100 + rs * (7 / 10))| ≤ M := by
    rw [abs_mul, abs_mul, abs_of_pos (by norm_num : (0 : ℚ) < 1 / 2), abs_of_nonneg hroom0]
    have : |v| * (1 / 2) * (28 / 100 + rs * (7 / 10)) ≤ |v| * (1 / 2) * 1 :=
      mul_le_mul_of_nonneg_left hroom1 (by linarith)
    linarith
  calc |input + (v * (1 / 2)) * (28 / 100 + rs * (7 / 10))|
      ≤ |input| + |(v * (1 / 2)) * (28 / 100 + rs * (7 / 10))| := abs_add _ _
    _ ≤ M + M := add_le_add hin hfb
    _ = 2 * M := by ring

theorem reverbChannel_bound (rs input M : ℚ) (h0 : 0 ≤ rs) (h1 : rs ≤ 1) (hin : |input| ≤ M)
    (c c' : Channel) (y : ℚ) (hcb : bankBound (2 * M) c.combBuffers)
    (hab : allpassBound (2 * M) c.allpassBuffers)
    (h : reverbChannel rs input c = some (c', y)) :
    bankBound (2 * M) c'.combBuffers ∧ allpassBound (2 * M) c'.allpassBuffers
      ∧ |y| ≤ (5 / 2) ^ c.allpassBuffers.length * (2 * M) := by
  have hM : 0 ≤ M := le_trans (abs_nonneg _) hin
  unfold reverbChannel at h
  cases hc1 : combLoop input (28 / 100 + rs * (7 / 10)) (1 / 2) 0 c.combBuffers c.combPos with
  | none => rw [hc1] at h; exact absurd h (by simp)
  | some r =>
    obtain ⟨cb, cp, sum⟩ := r
    rw [hc1] at h
    simp only [] at h
    split at h
    · exact absurd h (by simp)
    · rename_i hne
      cases hc2 : allpassLoop (sum / (c.combBuffers.length : ℚ)) c.allpassBuffers
          c.allpassPos with
      | none => rw [hc2] at h; exact absurd h (by simp)
      | some r =>
        obtain ⟨ab, ap, out⟩ := r
        rw [hc2] at h
        simp only [Option.some.injEq, Prod.mk.injEq] at h
        obtain ⟨rfl, rfl⟩ := h
        obtain ⟨hK1, hsum⟩ := combLoop_bound input _ (1 / 2) (2 * M)
          (fun v hv => comb_write_bound rs input M v h0 h1 hin hv) _ _ _ _ _ _ hcb hc1
        rw [sub_zero] at hsum
        have hn : (0 : ℚ) < (c.combBuffers.length : ℚ) := by
          exact_mod_cast Nat.pos_of_ne_zero hne
        have havg : |sum / (c.combBuffers.length : ℚ)| ≤ 2 * M := by
          rw [abs_div, abs_of_pos hn, div_le_iff₀ hn]
          linarith
        obtain ⟨hY1, ho⟩ := allpassLoop_bound _ _ _ (2 * M) _ _ _ havg hab hc2
        exact ⟨hK1, hY1, ho⟩

theorem processReverb_chan (s : State) (x : ℚ) (isLeft : Bool) (c : Channel) (y : ℚ)
    (h : reverbChannel s.reverbSize x (chan isLeft s) = some (c, y)) :
    ∃ s', processReverb s x isLeft = some (s', y) ∧ chan isLeft s' = c
      ∧ s'.reverbSize = s.reverbSize := by
  cases isLeft with
  | true =>
    simp only [chan, if_true] at h
    exact ⟨{ s with
             combBuffersL := c.combBuffers, combPosL := c.combPos,
             allpassBuffersL := c.allpassBuffers, allpassPosL := c.allpassPos },
      by simp only [processReverb, if_true, h], rfl, rfl⟩
  | false =>
    simp only [chan, Bool.false_eq_true, if_false] at h
    exact ⟨{ s with
             combBuffersR := c.combBuffers, combPosR := c.combPos,
             allpassBuffersR := c.allpassBuffers, allpassPosR := c.allpassPos },
      by simp only [processReverb, Bool.false_eq_true, if_false, h], rfl, rfl⟩

theorem reverbRun_bound (rs M : ℚ) (h0 : 0 ≤ rs) (h1 : rs ≤ 1) (isLeft : Bool) :
    ∀ (xs : List ℚ) (s : State), s.reverbSize = rs → (chan isLeft s).ok →
      bankBound (2 * M) (chan isLeft s).combBuffers →
      allpassBound (2 * M) (chan isLeft s).allpassBuffers →
      (chan isLeft s).allpassBuffers.length = allpassDelays.length →
      (∀ x ∈ xs, |x| ≤ M) →
      ∃ s' ys, reverbRun isLeft s xs = some (s', ys) ∧ ys.length = xs.length
        ∧ ∀ y ∈ ys, |y| ≤ 625 / 8 * M := by
  intro xs
  induction xs with
  | nil =>
    intro s _ _ _ _ _ _
    exact ⟨s, [], rfl, rfl, by intro y hy; simp at hy⟩
  | cons x xs ih =>
    intro s hrs hok hcb hab hlen hin
    have hx : |x| ≤ M := hin x (List.mem_cons_self _ _)
    obtain ⟨c, y, hrc, hok', -, hal⟩ := reverbChannel_ok s.reverbSize x (chan isLeft s) hok
    obtain ⟨hcb', hab', hy⟩ := reverbChannel_bound rs x M h0 h1 hx _ c y hcb hab (hrs ▸ hrc)
    obtain ⟨s1, hpr, hch, hrs1⟩ := processReverb_chan s x isLeft c y hrc
    have hlen1 : c.allpassBuffers.length = allpassDelays.length := by
      have := congrArg List.length hal
      rw [List.length_map, List.length_map] at this
      rw [this, hlen]
    obtain ⟨s2, ys, hrun, hlen2, hys⟩ := ih s1 (by rw [hrs1, hrs]) (by rw [hch]; exact hok')
      (by rw [hch]; exact hcb') (by rw [hch]; exact hab') (by rw [hch]; exact hlen1)
      (fun z hz => hin z (List.mem_cons_of_mem _ hz))
    refine ⟨s2, y :: ys, ?_, by simp [hlen2], ?_⟩
    · simp only [reverbRun, hpr, hrun]
    · intro z hz
      rcases List.mem_cons.mp hz with rfl | hz
      · rw [hlen] at hy
        calc |z| ≤ (5 / 2) ^ allpassDelays.length * (2 * M) := hy
          _ = 625 / 8 * M := by simp only [allpassDelays, List.length_cons, List.length_nil]; ring
      · exact hys z hz

/-- C8. For every `reverbSize` in `[0, 1]` there is a constant `C` such that, on every
channel with in-bounds cursors, four allpass filters and all-zero reverb buffers, for
every input sequence with `|x_n| ≤ M`, every call of `processReverb` returns and every
returned value satisfies `|y_n| ≤ C * M`. -/
theorem reverb_stable (rs : ℚ) (h0 : 0 ≤ rs) (h1 : rs ≤ 1) :
    ∃ C : ℚ, ∀ (s : State) (isLeft : Bool) (M : ℚ) (xs : List ℚ),
      s.reverbSize = rs → (chan isLeft s).ok →
      (chan isLeft s).allpassBuffers.length = allpassDelays.length →
      bankZero (chan isLeft s).combBuffers → bankZero (chan isLeft s).allpassBuffers →
      (∀ x ∈ xs, |x| ≤ M) →
      ∃ s' ys, reverbRun isLeft s xs = some (s', ys) ∧ ys.length = xs.length
        ∧ ∀ y ∈ ys, |y| ≤ C * M := by
  refine ⟨625 / 8, ?_⟩
  intro s isLeft M xs hrs hok hlen hzc hza hin
  cases xs with
  | nil => exact ⟨s, [], rfl, rfl, by intro y hy; simp at hy⟩
  | cons x xs =>
    have hM : 0 ≤ M := le_trans (abs_nonneg _) (hin x (List.mem_cons_self _ _))
    exact reverbRun_bound rs M h0 h1 isLeft (x :: xs) s hrs hok
      (bankBound_zero _ hzc _ (by linarith)) (allpassBound_zero _ hza _ (by linarith)) hlen hin

/-! ## Re-initialisation -/

theorem length_resize {α : Type} (l : List α) (n : Nat) (v : α) : (resize l n v).length = n := by
  simp only [resize, List.length_append, List.length_take, List.length_replicate]
  omega

theorem resize_of_length {α : Type} (l : List α) (n : Nat) (v : α) (h : l.length = n) :
    resize l n v = l := by
  simp [resize, ← h]

theorem resize_resize {α : Type} (l : List α) (n : Nat) (v : α) :
    resize (resize l n v) n v = resize l n v :=
  resize_of_length _ _ _ (length_resize l n v)

/-- If sizing a bank succeeds, then any bank whose buffers already have the resulting
lengths is left as it is: `resize` to the current size changes nothing. -/
theorem resizeFilters_same_shape (r : ℚ) (e : Int) :
    ∀ (cs : List Int) (bufs0 bufs1 bufs : List (List ℚ)),
      resizeFilters r e cs bufs0 = some bufs1 → bufs0.length = cs.length →
      bufs.map List.length = bufs1.map List.length →
      resizeFilters r e cs bufs = some bufs ∧ bufs1.length = cs.length := by
  intro cs
  induction cs with
  | nil =>
    intro bufs0 bufs1 bufs h hl hs
    simp only [resizeFilters, Option.some.injEq] at h
    subst h
    have h0 : bufs0 = [] := List.length_eq_zero.mp hl
    subst h0
    have : bufs = [] := by simpa using hs
    subst this
    exact ⟨rfl, rfl⟩
  | cons c cs ih =>
    intro bufs0 bufs1 bufs h hl hs
    cases bufs0 with
    | nil => simp at hl
    | cons b0 bufs0 =>
      simp only [resizeFilters] at h
      cases ht : toInt ((c : ℚ) * r / 44100) with
      | none => rw [ht] at h; exact absurd h (by simp)
      | some ds =>
        rw [ht] at h
        simp only [resizeInt] at h
        by_cases hnn : 0 ≤ ds + e
        · rw [if_pos hnn] at h
          simp only [] at h
          cases hr : resizeFilters r e cs bufs0 with
          | none => rw [hr] at h; exact absurd h (by simp)
          | some rest =>
            rw [hr] at h
            simp only [Option.some.injEq] at h
            subst h
            cases bufs with
            | nil => simp at hs
            | cons b bufs =>
              simp only [List.map_cons, List.cons.injEq, length_resize] at hs
              simp only [List.length_cons, Nat.add_right_cancel_iff] at hl
              obtain ⟨ih1, ih2⟩ := ih bufs0 rest bufs hr hl hs.2
              refine ⟨?_, by simp [ih2]⟩
              simp only [resizeFilters, ht, resizeInt, if_pos hnn, ih1,
                resize_of_length b _ 0 hs.1]
        · rw [if_neg hnn] at h
          exact absurd h (by simp)

/-- C9. For every state, channel count and sample rate, `initialize(c, r)` applied twice
in succession yields the same state (buffer lengths, buffer contents, cursors and
parameters) as applying it once; when the first call fails so does the pair. -/
theorem initialize_idempotent (s : State) (c : Int) (r : ℚ) :
    (initializeKernel s c r).bind (fun s1 => initializeKernel s1 c r)
      = initializeKernel s c r := by
  cases h : initializeKernel s c r with
  | none => rfl
  | some s1 =>
    rw [Option.some_bind]
    obtain ⟨n, cL, cR, aL, aR, hn, h1, h2, h3, h4, rfl⟩ :=
      (initializeKernel_eq_some s s1 c r).mp h
    have l1 := resizeFilters_same_shape r 0 combDelays _ cL cL h1 (length_resize _ _ _) rfl
    have l2 := resizeFilters_same_shape r 23 combDelays _ cR cR h2 (length_resize _ _ _) rfl
    have l3 := resizeFilters_same_shape r 0 allpassDelays _ aL aL h3 (length_resize _ _ _) rfl
    have l4 := resizeFilters_same_shape r 23 allpassDelays _ aR aR h4 (length_resize _ _ _) rfl
    rw [initializeKernel_eq_some]
    refine ⟨n, cL, cR, aL, aR, hn, ?_, ?_, ?_, ?_, ?_⟩
    · show resizeFilters r 0 combDelays (resize cL combDelays.length []) = some cL
      rw [resize_of_length _ _ _ l1.2]; exact l1.1
    · show resizeFilters r 23 combDelays (resize cR combDelays.length []) = some cR
      rw [resize_of_length _ _ _ l2.2]; exact l2.1
    · show resizeFilters r 0 allpassDelays (resize aL allpassDelays.length []) = some aL
      rw [resize_of_length _ _ _ l3.2]; exact l3.1
    · show resizeFilters r 23 allpassDelays (resize aR allpassDelays.length []) = some aR
      rw [resize_of_length _ _ _ l4.2]; exact l4.1
    · simp only [initState, resize_resize]

/-- Re-initialising a state whose buffers already have the sizes for the requested rate
keeps every sample and every filter cursor: only the channel count, the sample rate and
the write position are assigned. -/
theorem initializeKernel_same_rate (s0 s0' s : State) (c c0 : Int) (r : ℚ)
    (h0 : initializeKernel s0 c0 r = some s0') (hs : SameShape s0' s) :
    initializeKernel s c r = some { s with channels := c, sampleRate := r, writePos := 0 } := by
  obtain ⟨n, cL, cR, aL, aR, hn, h1, h2, h3, h4, rfl⟩ :=
    (initializeKernel_eq_some s0 s0' c0 r).mp h0
  obtain ⟨d1, d2, s1, s2, s3, s4, p1, p2, p3, p4⟩ := hs
  simp only [initState, length_resize] at d1 d2 s1 s2 s3 s4 p1 p2 p3 p4
  have l1 := resizeFilters_same_shape r 0 combDelays _ cL s.combBuffersL h1
    (length_resize _ _ _) s1
  have l2 := resizeFilters_same_shape r 23 combDelays _ cR s.combBuffersR h2
    (length_resize _ _ _) s2
  have l3 := resizeFilters_same_shape r 0 allpassDelays _ aL s.allpassBuffersL h3
    (length_resize _ _ _) s3
  have l4 := resizeFilters_same_shape r 23 allpassDelays _ aR s.allpassBuffersR h4
    (length_resize _ _ _) s4
  have len (a b : List (List ℚ)) (h : a.map List.length = b.map List.length) :
      a.length = b.length := by
    have := congrArg List.length h
    simpa using this
  have q1 := (len _ _ s1).trans l1.2
  have q2 := (len _ _ s2).trans l2.2
  have q3 := (len _ _ s3).trans l3.2
  have q4 := (len _ _ s4).trans l4.2
  rw [initializeKernel_eq_some]
  refine ⟨n, s.combBuffersL, s.combBuffersR, s.allpassBuffersL, s.allpassBuffersR, hn,
    ?_, ?_, ?_, ?_, ?_⟩
  · rw [resize_of_length _ _ _ q1]; exact l1.1
  · rw [resize_of_length _ _ _ q2]; exact l2.1
  · rw [resize_of_length _ _ _ q3]; exact l3.1
  · rw [resize_of_length _ _ _ q4]; exact l4.1
  · simp only [initState, resize_of_length _ _ _ d1, resize_of_length _ _ _ d2,
      resize_of_length _ _ _ p1, resize_of_length _ _ _ p2, resize_of_length _ _ _ p3,
      resize_of_length _ _ _ p4]

theorem process_one (s s' : State) (d : Int) (inL inR : Nat → ℚ) (a b : ℚ)
    (hd : delayInSamples s = some d)
    (hf : processFrame s d (inL 0) (inR 0) = some (s', a, b)) :
    process s inL inR 1 = some (s', [a], [b]) := by
  simp only [process, hd, processLoop, hf, List.nil_append]

theorem sameShape_frameState (s : State) (cL cR : Channel) (wL wR : ℚ)
    (hL : cL.shape = (s.left.combBuffers.map List.length,
      advanceCursors s.left.combBuffers s.left.combPos,
      s.left.allpassBuffers.map List.length,
      advanceCursors s.left.allpassBuffers s.left.allpassPos))
    (hR : cR.shape = (s.right.combBuffers.map List.length,
      advanceCursors s.right.combBuffers s.right.combPos,
      s.right.allpassBuffers.map List.length,
      advanceCursors s.right.allpassBuffers s.right.allpassPos))
    (hpL : (advanceCursors s.combBuffersL s.combPosL).length = s.combPosL.length)
    (hpR : (advanceCursors s.combBuffersR s.combPosR).length = s.combPosR.length)
    (hqL : (advanceCursors s.allpassBuffersL s.allpassPosL).length = s.allpassPosL.length)
    (hqR : (advanceCursors s.allpassBuffersR s.allpassPosR).length = s.allpassPosR.length) :
    SameShape s (frameState s cL cR wL wR) := by
  simp only [Channel.shape, Prod.mk.injEq, State.left, State.right] at hL hR
  obtain ⟨a1, a2, a3, a4⟩ := hL
  obtain ⟨b1, b2, b3, b4⟩ := hR
  refine ⟨?_, ?_, a1, b1, a3, b3, ?_, ?_, ?_, ?_⟩
  · simp [frameState]
  · simp [frameState]
  · simp only [frameState, a2, hpL]
  · simp only [frameState, b2, hpR]
  · simp only [frameState, a4, hqL]
  · simp only [frameState, b4, hqR]

theorem constructed_delayBufferL_length : constructed.delayBufferL.length = 88200 := by
  show (List.replicate 88200 (0 : ℚ)).length = 88200
  exact List.length_replicate _ _

theorem constructed_delay_zero :
    (∀ x ∈ constructed.delayBufferL, x = 0) ∧ (∀ x ∈ constructed.delayBufferR, x = 0) :=
  ⟨fun _ hx => List.eq_of_mem_replicate hx, fun _ hx => List.eq_of_mem_replicate hx⟩

/-- C10 fails on the code: after the constructor, one frame of `process` on the input
`1` and then `initialize(2, 44100)`, the delay buffers still hold the sample `1` at
index `0` and every comb and allpass cursor still stands at `1`. The `resize` calls of
`initialize` keep the existing elements. -/
theorem initialize_keeps_old_state :
    ∃ s1 outL outR s2, process constructed ones ones 1 = some (s1, outL, outR)
      ∧ initializeKernel s1 2 44100 = some s2
      ∧ s2.delayBufferL[0]? = some 1 ∧ s2.delayBufferR[0]? = some 1
      ∧ s2.combPosL = List.replicate 8 1 ∧ s2.combPosR = List.replicate 8 1
      ∧ s2.allpassPosL = List.replicate 4 1 ∧ s2.allpassPosR = List.replicate 4 1 := by
  have hD : delayInSamples constructed = some ((16537 : Nat) : Int) :=
    delayInSamples_constructed constructed constructed_delayBufferL_length (by decide!)
  obtain ⟨dlL, dlR, shL, shR, yL, yR, cL, cR, hgL, hgR, -, -, -, hrL, -, hrR, -, hpf, -⟩ :=
    processFrame_ok constructed 16537 1 1 ready_constructed
      (by rw [constructed_delayBufferL_length]; decide)
  have e1 : dlL = 0 := getElem?_zero_of_zero constructed_delay_zero.1 hgL
  have e2 : dlR = 0 := getElem?_zero_of_zero constructed_delay_zero.2 hgR
  subst e1 e2
  rw [zero_mul, add_zero] at hpf
  obtain ⟨-, hsL⟩ := reverbChannel_inv _ _ _ _ _ hrL
  obtain ⟨-, hsR⟩ := reverbChannel_inv _ _ _ _ _ hrR
  have hshape : SameShape constructed (frameState constructed cL cR 1 1) :=
    sameShape_frameState constructed cL cR 1 1 hsL hsR (by decide!) (by decide!) (by decide!)
      (by decide!)
  have hinit := initializeKernel_same_rate blank constructed (frameState constructed cL cR 1 1)
    2 2 44100 construct_eq hshape
  simp only [Channel.shape, Prod.mk.injEq] at hsL hsR
  have hN : 0 < constructed.delayBufferL.length := ready_constructed.1
  have hNR : 0 < constructed.delayBufferR.length := by
    rw [ready_constructed.2.1]; exact hN
  refine ⟨_, _, _, _, process_one constructed _ _ ones ones _ _ hD hpf, hinit, ?_, ?_, ?_, ?_,
    ?_, ?_⟩
  · show (constructed.delayBufferL.set constructed.writePos 1)[0]? = some 1
    exact List.getElem?_set_self hN
  · show (constructed.delayBufferR.set constructed.writePos 1)[0]? = some 1
    exact List.getElem?_set_self hNR
  · show cL.combPos = List.replicate 8 1
    rw [hsL.2.1]; decide!
  · show cR.combPos = List.replicate 8 1
    rw [hsR.2.1]; decide!
  · show cL.allpassPos = List.replicate 4 1
    rw [hsL.2.2.2]; decide!
  · show cR.allpassPos = List.replicate 4 1
    rw [hsR.2.2.2]; decide!

/-- C6 fails on the code: on the state the constructor leaves (`initialize(2, 44100)`),
with `delayTime = -3000` ms the delay length is `-132300` (the clamp is only from
above), so the first frame of `process` reads the delay buffers at index `132300`,
outside `[0, 88200)`; and with `delayTime = 10^8` ms the cast to `int` is out of range. -/
theorem negative_delay_reads_out_of_bounds :
    construct = some constructed
      ∧ (setParameter constructed 0 (-3000)).delayBufferL.length = 88200
      ∧ (setParameter constructed 0 (-3000)).writePos = 0
      ∧ delayInSamples (setParameter constructed 0 (-3000)) = some (-132300)
      ∧ readPosOf (setParameter constructed 0 (-3000)) (-132300) = 132300
      ∧ (∀ inL inR : Nat → ℚ, process (setParameter constructed 0 (-3000)) inL inR 1 = none)
      ∧ delayInSamples (setParameter constructed 0 100000000) = none := by
  have hlen : (setParameter constructed 0 (-3000)).delayBufferL.length = 88200 :=
    constructed_delayBufferL_length
  have ht : toInt ((setParameter constructed 0 (-3000)).delayTime / 1000
      * (setParameter constructed 0 (-3000)).sampleRate) = some (-132300) := by decide!
  have hd : delayInSamples (setParameter constructed 0 (-3000)) = some (-132300) := by
    rw [delayInSamples_eq _ _ 88200 hlen ht]
    rfl
  have hr : readPosOf (setParameter constructed 0 (-3000)) (-132300) = 132300 := by
    unfold readPosOf
    rw [hlen]
    rfl
  have hg : getAt (setParameter constructed 0 (-3000)).delayBufferL 132300 = none := by
    unfold getAt
    rw [if_pos (by decide)]
    exact List.getElem?_eq_none (by rw [hlen]; decide)
  have hbig : toInt ((setParameter constructed 0 100000000).delayTime / 1000
      * (setParameter constructed 0 100000000).sampleRate) = none := by decide!
  refine ⟨construct_eq, hlen, rfl, hd, hr, ?_, ?_⟩
  · intro inL inR
    exact process_none_of_read _ _ inL inR 0 hd (by rw [hr]; exact hg)
  · unfold delayInSamples
    rw [hbig]

theorem bankZero_map_replicate (cs : List Int) (f : Int → Nat) :
    bankZero (cs.map (fun c => List.replicate (f c) (0 : ℚ))) := by
  intro b hb x hx
  simp only [List.mem_map] at hb
  obtain ⟨c, -, rfl⟩ := hb
  exact List.eq_of_mem_replicate hx

/-- Witness of C8 at the default `reverbSize = 0.7`, on the left channel of the
constructor's state and the input `1, -1, 1/2`. -/
theorem reverb_stable_witness :
    (0 : ℚ) ≤ 7 / 10 ∧ (7 / 10 : ℚ) ≤ 1
      ∧ ∃ C : ℚ, ∃ s' ys, reverbRun true constructed [1, -1, 1 / 2] = some (s', ys)
          ∧ ys.length = 3 ∧ ∀ y ∈ ys, |y| ≤ C * 1 :=
  ⟨by norm_num, by norm_num,
    (reverb_stable (7 / 10) (by norm_num) (by norm_num)).imp fun _ h =>
      h constructed true 1 [1, -1, 1 / 2] rfl ready_constructed.2.2.2.2.1 rfl
        (bankZero_map_replicate combDelays (fun c => c.toNat))
        (bankZero_map_replicate allpassDelays (fun c => c.toNat))
        (by
          intro x hx
          simp only [List.mem_cons, List.mem_singleton, List.not_mem_nil, or_false] at hx
          rcases hx with rfl | rfl | rfl <;> norm_num [abs_le])⟩

/-! ## Reset and the parameter store: what is left alone -/

theorem zeroFill_nat_zero (l : List Nat) : ∀ p ∈ zeroFill l, p = 0 := by
  intro p hp
  simp only [zeroFill, List.mem_map] at hp
  obtain ⟨_, _, rfl⟩ := hp
  rfl

theorem map_length_map_zeroFill (bufs : List (List ℚ)) :
    (bufs.map zeroFill).map List.length = bufs.map List.length := by
  simp [zeroFill, Function.comp_def]

/-- C11. For every engine state, after `reset()` every sample of every delay, comb and
allpass buffer is zero, the write cursor and every comb and allpass cursor are zero, and
every buffer length (and number of cursors), the sample rate, the channel count and all
eight parameter values are unchanged. -/
theorem reset_postcondition (s : State) :
    Silent (reset s) ∧ (reset s).writePos = 0
      ∧ (∀ p ∈ (reset s).combPosL, p = 0) ∧ (∀ p ∈ (reset s).combPosR, p = 0)
      ∧ (∀ p ∈ (reset s).allpassPosL, p = 0) ∧ (∀ p ∈ (reset s).allpassPosR, p = 0)
      ∧ SameShape s (reset s) ∧ SameParams s (reset s) := by
  refine ⟨silent_reset s, rfl, zeroFill_nat_zero _, zeroFill_nat_zero _, zeroFill_nat_zero _,
    zeroFill_nat_zero _, ?_, ?_⟩
  · refine ⟨?_, ?_, map_length_map_zeroFill _, map_length_map_zeroFill _,
      map_length_map_zeroFill _, map_length_map_zeroFill _, ?_, ?_, ?_, ?_⟩ <;>
      simp [reset, zeroFill]
  · exact ⟨rfl, rfl, rfl, rfl, rfl, rfl, rfl, rfl, rfl, rfl⟩

/-- C14. For every state, every pair of distinct addresses `a`, `b` in `0..7` and every
value `v`, `getParameter(b)` after `setParameter(a, v)` equals `getParameter(b)` before,
and `setParameter` changes no buffer, cursor, buffer length, sample rate or channel
count. -/
theorem setParameter_only_addressed (s : State) (a b : Nat) (v : ℚ) (ha : a < 8) (hb : b < 8)
    (hab : a ≠ b) :
    getParameter (setParameter s a v) b = getParameter s b
      ∧ (setParameter s a v).channels = s.channels
      ∧ (setParameter s a v).sampleRate = s.sampleRate
      ∧ (setParameter s a v).delayBufferL = s.delayBufferL
      ∧ (setParameter s a v).delayBufferR = s.delayBufferR
      ∧ (setParameter s a v).writePos = s.writePos
      ∧ (setParameter s a v).left = s.left
      ∧ (setParameter s a v).right = s.right := by
  refine ⟨?_, setParameter_frame s a v⟩
  interval_cases a <;> interval_cases b <;> first | rfl | exact absurd rfl hab

/-- Witness of C14: setting the feedback (address 1) on the constructor's state leaves
the delay time (address 0) and all buffers alone. -/
theorem setParameter_only_addressed_witness :
    (1 : Nat) < 8 ∧ (0 : Nat) < 8 ∧ (1 : Nat) ≠ 0
      ∧ getParameter (setParameter constructed 1 (9 / 10)) 0 = getParameter constructed 0
      ∧ (setParameter constructed 1 (9 / 10)).channels = constructed.channels
      ∧ (setParameter constructed 1 (9 / 10)).sampleRate = constructed.sampleRate
      ∧ (setParameter constructed 1 (9 / 10)).delayBufferL = constructed.delayBufferL
      ∧ (setParameter constructed 1 (9 / 10)).delayBufferR = constructed.delayBufferR
      ∧ (setParameter constructed 1 (9 / 10)).writePos = constructed.writePos
      ∧ (setParameter constructed 1 (9 / 10)).left = constructed.left
      ∧ (setParameter constructed 1 (9 / 10)).right = constructed.right :=
  ⟨by decide, by decide, by decide,
    setParameter_only_addressed constructed 1 0 (9 / 10) (by decide) (by decide) (by decide)⟩

/-! ## Buffer lengths after initialize -/

theorem resizeFilters_lengths (r : ℚ) (e : Int) (hr0 : 0 ≤ r) (hr1 : r < 2 ^ 30)
    (he : 0 ≤ e) :
    ∀ (cs : List Int) (bufs : List (List ℚ)), (∀ c ∈ cs, 0 ≤ c ∧ c ≤ 44100) →
      bufs.length = cs.length →
      ∃ bufs', resizeFilters r e cs bufs = some bufs'
        ∧ bufs'.map List.length = cs.map (fun c : Int => ⌊(c : ℚ) * r / 44100⌋.toNat + e.toNat) := by
  intro cs
  induction cs with
  | nil =>
    intro bufs _ hl
    have : bufs = [] := List.length_eq_zero.mp hl
    subst this
    exact ⟨[], rfl, rfl⟩
  | cons c cs ih =>
    intro bufs hc hl
    cases bufs with
    | nil => simp at hl
    | cons b bufs =>
      obtain ⟨hc0, hc1⟩ := hc c (List.mem_cons_self _ _)
      have hc0' : (0 : ℚ) ≤ (c : ℚ) := by exact_mod_cast hc0
      have hc1' : (c : ℚ) ≤ 44100 := by exact_mod_cast hc1
      have hx0 : 0 ≤ (c : ℚ) * r / 44100 := by positivity
      have hx1 : (c : ℚ) * r / 44100 < 2 ^ 31 := by
        have h1 : (c : ℚ) * r ≤ 44100 * r := mul_le_mul_of_nonneg_right hc1' hr0
        have h2 : (c : ℚ) * r / 44100 ≤ r := by
          rw [div_le_iff₀ (by norm_num)]; linarith
        have h3 : (2 : ℚ) ^ 30 < 2 ^ 31 := by norm_num
        linarith
      obtain ⟨ht, hf⟩ := toInt_of_nonneg hx0 hx1
      simp only [List.length_cons, Nat.add_right_cancel_iff] at hl
      obtain ⟨rest, hr, hlen⟩ := ih bufs (fun c' hc' => hc c' (List.mem_cons_of_mem _ hc')) hl
      refine ⟨resize b (⌊(c : ℚ) * r / 44100⌋ + e).toNat 0 :: rest, ?_, ?_⟩
      · simp only [resizeFilters, ht, resizeInt, if_pos (add_nonneg hf he), hr]
      · simp only [List.map_cons, length_resize, hlen, List.cons.injEq, and_true]
        exact Int.toNat_add hf he

theorem design_delays_range :
    (∀ c ∈ combDelays, 0 ≤ c ∧ c ≤ 44100) ∧ (∀ c ∈ allpassDelays, 0 ≤ c ∧ c ≤ 44100) := by
  decide

/-- For a sample rate `0 ≤ r < 2^30`, `initialize` succeeds from any state, and the
buffer lengths are the truncated design lengths. -/
theorem initialize_lengths (s : State) (c : Int) (r : ℚ) (h0 : 0 ≤ r) (h1 : r < 2 ^ 30) :
    ∃ s', initializeKernel s c r = some s'
      ∧ s'.delayBufferL.length = ⌊2 * r⌋.toNat ∧ s'.delayBufferR.length = ⌊2 * r⌋.toNat
      ∧ s'.combBuffersL.map List.length
          = combDelays.map (fun c : Int => ⌊(c : ℚ) * r / 44100⌋.toNat)
      ∧ s'.combBuffersR.map List.length
          = combDelays.map (fun c : Int => ⌊(c : ℚ) * r / 44100⌋.toNat + 23)
      ∧ s'.allpassBuffersL.map List.length
          = allpassDelays.map (fun c : Int => ⌊(c : ℚ) * r / 44100⌋.toNat)
      ∧ s'.allpassBuffersR.map List.length
          = allpassDelays.map (fun c : Int => ⌊(c : ℚ) * r / 44100⌋.toNat + 23)
      ∧ s'.combPosL = resize s.combPosL combDelays.length 0
      ∧ s'.combPosR = resize s.combPosR combDelays.length 0
      ∧ s'.allpassPosL = resize s.allpassPosL allpassDelays.length 0
      ∧ s'.allpassPosR = resize s.allpassPosR allpassDelays.length 0
      ∧ s'.writePos = 0 ∧ s'.sampleRate = r
      ∧ s'.delayBufferL = resize s.delayBufferL ⌊2 * r⌋.toNat 0 := by
  have hx0 : 0 ≤ maxDelayTime * r := by unfold maxDelayTime; positivity
  have hx1 : maxDelayTime * r < 2 ^ 31 := by
    unfold maxDelayTime
    have : (2 : ℚ) ^ 31 = 2 * 2 ^ 30 := by norm_num
    linarith
  obtain ⟨ht, hf⟩ := toInt_of_nonneg hx0 hx1
  have hfl : ⌊maxDelayTime * r⌋ = ((⌊2 * r⌋.toNat : Nat) : Int) := by
    unfold maxDelayTime at hf ⊢
    rw [Int.toNat_of_nonneg hf]
  rw [hfl] at ht
  obtain ⟨cL, e1, l1⟩ := resizeFilters_lengths r 0 h0 h1 le_rfl combDelays
    (resize s.combBuffersL combDelays.length []) design_delays_range.1 (length_resize _ _ _)
  obtain ⟨cR, e2, l2⟩ := resizeFilters_lengths r 23 h0 h1 (by decide) combDelays
    (resize s.combBuffersR combDelays.length []) design_delays_range.1 (length_resize _ _ _)
  obtain ⟨aL, e3, l3⟩ := resizeFilters_lengths r 0 h0 h1 le_rfl allpassDelays
    (resize s.allpassBuffersL allpassDelays.length []) design_delays_range.2
    (length_resize _ _ _)
  obtain ⟨aR, e4, l4⟩ := resizeFilters_lengths r 23 h0 h1 (by decide) allpassDelays
    (resize s.allpassBuffersR allpassDelays.length []) design_delays_range.2
    (length_resize _ _ _)
  refine ⟨initState s c r ⌊2 * r⌋.toNat cL cR aL aR,
    (initializeKernel_eq_some s _ c r).mpr ⟨_, cL, cR, aL, aR, ht, e1, e2, e3, e4, rfl⟩,
    length_resize _ _ _, length_resize _ _ _, ?_, ?_, ?_, ?_, rfl, rfl, rfl, rfl, rfl, rfl, rfl⟩
  · simpa [initState] using l1
  · simpa [initState] using l2
  · simpa [initState] using l3
  · simpa [initState] using l4

/-- C12 (amended). For every sample rate `196 ≤ r < 2^30` passed to `initialize`, from
any prior state, `initialize` returns and every one of the eight comb buffers and four
allpass buffers of both channels has length at least `1` afterwards. (`196 = 44100/225`
is the least rate at which the shortest left allpass buffer is non-empty.) -/
theorem filter_lengths_positive (s : State) (c : Int) (r : ℚ) (h0 : 196 ≤ r)
    (h1 : r < 2 ^ 30) :
    ∃ s', initializeKernel s c r = some s'
      ∧ (∀ b ∈ s'.combBuffersL, 1 ≤ b.length) ∧ (∀ b ∈ s'.combBuffersR, 1 ≤ b.length)
      ∧ (∀ b ∈ s'.allpassBuffersL, 1 ≤ b.length)
      ∧ (∀ b ∈ s'.allpassBuffersR, 1 ≤ b.length)
      ∧ s'.combBuffersL.length = 8 ∧ s'.combBuffersR.length = 8
      ∧ s'.allpassBuffersL.length = 4 ∧ s'.allpassBuffersR.length = 4 := by
  obtain ⟨s', h, -, -, a3, a4, a5, a6, -⟩ :=
    initialize_lengths s c r (le_trans (by norm_num) h0) h1
  have hfloor : ∀ d : Int, 225 ≤ d → 1 ≤ ⌊(d : ℚ) * r / 44100⌋.toNat := by
    intro d hd
    have hd' : (225 : ℚ) ≤ (d : ℚ) := by exact_mod_cast hd
    have hx : (1 : ℚ) ≤ (d : ℚ) * r / 44100 := by
      rw [le_div_iff₀ (by norm_num)]
      nlinarith
    have : (1 : Int) ≤ ⌊(d : ℚ) * r / 44100⌋ := by
      rw [Int.le_floor]; exact_mod_cast hx
    omega
  have hmin : (∀ d ∈ combDelays, (225 : Int) ≤ d) ∧ (∀ d ∈ allpassDelays, (225 : Int) ≤ d) := by
    decide
  have key : ∀ (bufs : List (List ℚ)) (cs : List Int) (f : Int → Nat),
      bufs.map List.length = cs.map f → (∀ d ∈ cs, 1 ≤ f d) → ∀ b ∈ bufs, 1 ≤ b.length := by
    intro bufs cs f hmap hf b hb
    have hmem : b.length ∈ cs.map f := by
      rw [← hmap]; exact List.mem_map_of_mem _ hb
    obtain ⟨d, hd, hfd⟩ := List.mem_map.mp hmem
    rw [← hfd]; exact hf d hd
  have len : ∀ (bufs : List (List ℚ)) (cs : List Int) (f : Int → Nat),
      bufs.map List.length = cs.map f → bufs.length = cs.length := by
    intro bufs cs f hmap
    have := congrArg List.length hmap
    simpa using this
  refine ⟨s', h, key _ _ _ a3 (fun d hd => hfloor d (hmin.1 d hd)),
    key _ _ _ a4 (fun d hd => le_trans (hfloor d (hmin.1 d hd)) (Nat.le_add_right _ _)),
    key _ _ _ a5 (fun d hd => hfloor d (hmin.2 d hd)),
    key _ _ _ a6 (fun d hd => le_trans (hfloor d (hmin.2 d hd)) (Nat.le_add_right _ _)),
    len _ _ _ a3, len _ _ _ a4, len _ _ _ a5, len _ _ _ a6⟩

/-- Witness of C12 at 44100 Hz on the constructor's empty vectors. -/
theorem filter_lengths_positive_witness :
    (196 : ℚ) ≤ 44100 ∧ (44100 : ℚ) < 2 ^ 30
      ∧ ∃ s', initializeKernel blank 2 44100 = some s'
        ∧ (∀ b ∈ s'.combBuffersL, 1 ≤ b.length) ∧ (∀ b ∈ s'.combBuffersR, 1 ≤ b.length)
        ∧ (∀ b ∈ s'.allpassBuffersL, 1 ≤ b.length)
        ∧ (∀ b ∈ s'.allpassBuffersR, 1 ≤ b.length)
        ∧ s'.combBuffersL.length = 8 ∧ s'.combBuffersR.length = 8
        ∧ s'.allpassBuffersL.length = 4 ∧ s'.allpassBuffersR.length = 4 :=
  ⟨by norm_num, by norm_num, filter_lengths_positive blank 2 44100 (by norm_num) (by norm_num)⟩

/-- C12 as stated fails: `initialize(2, 100)` on the constructor's state (a sample rate
greater than 0) returns and leaves the first and the last left allpass buffer empty
(`225 * 100 / 44100` and `341 * 100 / 44100` truncate to `0`). -/
theorem filter_length_zero_at_100 :
    (0 : ℚ) < 100
      ∧ ∃ s', initializeKernel constructed 2 100 = some s'
        ∧ s'.allpassBuffersL.map List.length = [0, 1, 1, 0]
        ∧ s'.combBuffersL.map List.length = [3, 3, 3, 3, 2, 3, 2, 2] := by
  obtain ⟨s', h, -, -, a3, -, a5, -⟩ :=
    initialize_lengths constructed 2 100 (by norm_num) (by norm_num)
  refine ⟨by norm_num, s', h, ?_, ?_⟩
  · rw [a5]; decide!
  · rw [a3]; decide!

/-! ## Read and tap positions -/

theorem advanceCursors_length :
    ∀ (bufs : List (List ℚ)) (ps : List Nat), (advanceCursors bufs ps).length = ps.length := by
  intro bufs
  induction bufs with
  | nil => intro ps; rfl
  | cons b bufs ih =>
    intro ps
    cases ps with
    | nil => rfl
    | cons p ps => simp only [advanceCursors, List.length_cons, ih ps]

theorem advanceBy_zero :
    ∀ (bufs : List (List ℚ)) (ps : List Nat), cursorsOK bufs ps = true →
      advanceBy 0 bufs ps = ps := by
  intro bufs
  induction bufs with
  | nil => intro ps _; rfl
  | cons b bufs ih =>
    intro ps h
    cases ps with
    | nil => simp [cursorsOK] at h
    | cons p ps =>
      simp only [cursorsOK, Bool.and_eq_true, decide_eq_true_eq] at h
      simp only [advanceBy, Nat.add_zero, Nat.mod_eq_of_lt h.1, ih ps h.2]

theorem advanceCursors_advanceBy (f : Nat) :
    ∀ (bufs bufs' : List (List ℚ)) (ps : List Nat),
      bufs'.map List.length = bufs.map List.length →
      advanceCursors bufs' (advanceBy f bufs ps) = advanceBy (f + 1) bufs ps := by
  intro bufs
  induction bufs with
  | nil =>
    intro bufs' ps h
    have : bufs' = [] := by simpa using h
    subst this
    rfl
  | cons b bufs ih =>
    intro bufs' ps h
    cases bufs' with
    | nil => simp at h
    | cons b' bufs' =>
      simp only [List.map_cons, List.cons.injEq] at h
      cases ps with
      | nil => rfl
      | cons p ps =>
        simp only [advanceBy, advanceCursors, h.1, ih bufs' ps h.2, List.cons.injEq, and_true]
        rw [Nat.mod_add_mod, Nat.add_assoc]

theorem sameShape_trans (s t u : State) (h1 : SameShape s t) (h2 : SameShape t u) :
    SameShape s u := by
  obtain ⟨a1, a2, a3, a4, a5, a6, a7, a8, a9, a10⟩ := h1
  obtain ⟨b1, b2, b3, b4, b5, b6, b7, b8, b9, b10⟩ := h2
  exact ⟨b1.trans a1, b2.trans a2, b3.trans a3, b4.trans a4, b5.trans a5, b6.trans a6,
    b7.trans a7, b8.trans a8, b9.trans a9, b10.trans a10⟩

theorem sameParams_trans (s t u : State) (h1 : SameParams s t) (h2 : SameParams t u) :
    SameParams s u := by
  obtain ⟨a1, a2, a3, a4, a5, a6, a7, a8, a9, a10⟩ := h1
  obtain ⟨b1, b2, b3, b4, b5, b6, b7, b8, b9, b10⟩ := h2
  exact ⟨b1.trans a1, b2.trans a2, b3.trans a3, b4.trans a4, b5.trans a5, b6.trans a6,
    b7.trans a7, b8.trans a8, b9.trans a9, b10.trans a10⟩

/-- One frame on a well-formed state with a delay length in `[0, N)`: it returns, the
write position and every filter cursor advance by one modulo their buffer lengths, and
lengths and parameters stay. -/
theorem processFrame_step (s : State) (dn : Nat) (xL xR : ℚ) (hs : Ready s)
    (hd : dn < s.delayBufferL.length) :
    ∃ s' oL oR, processFrame s (dn : Int) xL xR = some (s', oL, oR) ∧ Ready s'
      ∧ SameParams s s' ∧ SameShape s s'
      ∧ s'.writePos = (s.writePos + 1) % s.delayBufferL.length
      ∧ s'.combPosL = advanceCursors s.combBuffersL s.combPosL
      ∧ s'.combPosR = advanceCursors s.combBuffersR s.combPosR
      ∧ s'.allpassPosL = advanceCursors s.allpassBuffersL s.allpassPosL
      ∧ s'.allpassPosR = advanceCursors s.allpassBuffersR s.allpassPosR := by
  obtain ⟨dlL, dlR, shL, shR, yL, yR, cL, cR, -, -, -, -, -, hrL, -, hrR, -, hpf, hready⟩ :=
    processFrame_ok s dn xL xR hs hd
  obtain ⟨-, hsL⟩ := reverbChannel_inv _ _ _ _ _ hrL
  obtain ⟨-, hsR⟩ := reverbChannel_inv _ _ _ _ _ hrR
  have hshape := sameShape_frameState s cL cR (xL + dlL * s.delayFeedback)
    (xR + dlR * s.delayFeedback) hsL hsR (advanceCursors_length _ _)
    (advanceCursors_length _ _) (advanceCursors_length _ _) (advanceCursors_length _ _)
  simp only [Channel.shape, Prod.mk.injEq] at hsL hsR
  exact ⟨_, _, _, hpf, hready, ⟨rfl, rfl, rfl, rfl, rfl, rfl, rfl, rfl, rfl, rfl⟩, hshape, rfl,
    hsL.2.1, hsR.2.1, hsL.2.2.2, hsR.2.2.2⟩

theorem processLoop_cursors (s : State) (dn : Nat) (inL inR : Nat → ℚ) (hs : Ready s)
    (hd : dn < s.delayBufferL.length) (n : Nat) :
    ∃ s' outL outR, processLoop (dn : Int) inL inR s n = some (s', outL, outR) ∧ Ready s'
      ∧ SameParams s s' ∧ SameShape s s'
      ∧ outL.length = n ∧ outR.length = n
      ∧ s'.writePos = (s.writePos + n) % s.delayBufferL.length
      ∧ s'.combPosL = advanceBy n s.combBuffersL s.combPosL
      ∧ s'.combPosR = advanceBy n s.combBuffersR s.combPosR
      ∧ s'.allpassPosL = advanceBy n s.allpassBuffersL s.allpassPosL
      ∧ s'.allpassPosR = advanceBy n s.allpassBuffersR s.allpassPosR := by
  induction n with
  | zero =>
    have hs' := hs
    obtain ⟨-, -, hw, -, ⟨-, c1, c2⟩, ⟨-, c3, c4⟩⟩ := hs'
    exact ⟨s, [], [], rfl, hs, ⟨rfl, rfl, rfl, rfl, rfl, rfl, rfl, rfl, rfl, rfl⟩,
      ⟨rfl, rfl, rfl, rfl, rfl, rfl, rfl, rfl, rfl, rfl⟩, rfl, rfl,
      by rw [Nat.add_zero, Nat.mod_eq_of_lt hw],
      (advanceBy_zero _ _ c1).symm, (advanceBy_zero _ _ c3).symm,
      (advanceBy_zero _ _ c2).symm, (advanceBy_zero _ _ c4).symm⟩
  | succ n ih =>
    obtain ⟨s1, oL1, oR1, h1, hr1, hp1, hsh1, hl1, hl2, hw1, q1, q2, q3, q4⟩ := ih
    have hsh := hsh1
    obtain ⟨d1, -, m1, m2, m3, m4, -⟩ := hsh
    obtain ⟨s2, a, b, h2, hr2, hp2, hsh2, hw2, r1, r2, r3, r4⟩ :=
      processFrame_step s1 dn (inL n) (inR n) hr1 (by rw [d1]; exact hd)
    refine ⟨s2, oL1 ++ [a], oR1 ++ [b], ?_, hr2, sameParams_trans _ _ _ hp1 hp2,
      sameShape_trans _ _ _ hsh1 hsh2, by simp [hl1], by simp [hl2], ?_, ?_, ?_, ?_, ?_⟩
    · simp only [processLoop, h1, h2]
    · rw [hw2, hw1, d1, Nat.mod_add_mod, Nat.add_assoc]
    · rw [r1, q1, advanceCursors_advanceBy n _ _ _ m1]
    · rw [r2, q2, advanceCursors_advanceBy n _ _ _ m2]
    · rw [r3, q3, advanceCursors_advanceBy n _ _ _ m3]
    · rw [r4, q4, advanceCursors_advanceBy n _ _ _ m4]

theorem getD_of_lt (b : List ℚ) (p : Nat) (h : p < b.length) : b.getD p 0 = b[p] := by
  simp [List.getD_eq_getElem?_getD, List.getElem?_eq_getElem h]

theorem combLoop_reference (x roomSize : ℚ) :
    ∀ (bufs : List (List ℚ)) (ps : List Nat) (acc : ℚ), cursorsOK bufs ps = true →
      combLoop x roomSize (1 / 2) acc bufs ps
        = some (schroederCombCells x roomSize bufs ps, advanceCursors bufs ps,
            acc + (schroederReads bufs ps).sum) := by
  intro bufs
  induction bufs with
  | nil =>
    intro ps acc _
    cases ps <;> simp [combLoop, schroederCombCells, advanceCursors, schroederReads]
  | cons b bufs ih =>
    intro ps acc h
    cases ps with
    | nil => simp [cursorsOK] at h
    | cons p ps =>
      simp only [cursorsOK, Bool.and_eq_true, decide_eq_true_eq] at h
      have e : x + b[p] * (1 / 2) * roomSize = x + 1 / 2 * b[p] * roomSize := by ring
      simp only [combLoop, List.getElem?_eq_getElem h.1, ih ps (acc + b[p]) h.2,
        schroederCombCells, advanceCursors, schroederReads, getD_of_lt b p h.1,
        List.sum_cons, e, add_assoc]

theorem allpassLoop_reference :
    ∀ (bufs : List (List ℚ)) (ps : List Nat) (y : ℚ), cursorsOK bufs ps = true →
      allpassLoop y bufs ps
        = some ((schroederAllpass y bufs ps).1, advanceCursors bufs ps,
            (schroederAllpass y bufs ps).2) := by
  intro bufs
  induction bufs with
  | nil =>
    intro ps y _
    cases ps <;> simp [allpassLoop, schroederAllpass, advanceCursors]
  | cons b bufs ih =>
    intro ps y h
    cases ps with
    | nil => simp [cursorsOK] at h
    | cons p ps =>
      simp only [cursorsOK, Bool.and_eq_true, decide_eq_true_eq] at h
      have e1 : b[p] - y * (1 / 2) = b[p] - 1 / 2 * y := by ring
      have e2 : y + b[p] * (1 / 2) = y + 1 / 2 * b[p] := by ring
      simp only [allpassLoop, List.getElem?_eq_getElem h.1, e1, e2, ih ps _ h.2,
        schroederAllpass, advanceCursors, getD_of_lt b p h.1]

theorem reverbChannel_reference (reverbSize x : ℚ) (c : Channel) (hc : c.ok)
    (h8 : c.combBuffers.length = 8) :
    reverbChannel reverbSize x c = some (schroederStep reverbSize x c) := by
  obtain ⟨-, h1, h2⟩ := hc
  have e : (28 : ℚ) / 100 + reverbSize * (7 / 10) = 28 / 100 + 7 / 10 * reverbSize := by ring
  unfold reverbChannel
  rw [e, combLoop_reference x _ _ _ 0 h1]
  simp only [h8, zero_add]
  rw [if_neg (by decide), allpassLoop_reference _ _ _ h2]
  simp only [schroederStep, Nat.cast_ofNat]

/-- C17. For one call `processReverb(x)` on a channel with in-bounds cursors and eight
comb filters, the call returns and agrees with the Schroeder reference step: with
`roomSize = 0.28 + 0.7 * reverbSize` and `d_i` the value of comb `i` at its cursor, comb
`i`'s cell at its cursor becomes `x + (0.5 * d_i) * roomSize` and its other cells are
unchanged; the comb-stage output is `(d_1 + ... + d_8) / 8`; allpass `j`'s cell becomes
`y_(j-1) + 0.5 * e_j` with `y_j = e_j - 0.5 * y_(j-1)`; the returned value is the output
of the last allpass. -/
theorem reverb_step_reference (s : State) (x : ℚ) (isLeft : Bool) (hc : (chan isLeft s).ok)
    (h8 : (chan isLeft s).combBuffers.length = 8) :
    ∃ s', processReverb s x isLeft
        = some (s', (schroederStep s.reverbSize x (chan isLeft s)).2)
      ∧ chan isLeft s' = (schroederStep s.reverbSize x (chan isLeft s)).1 := by
  obtain ⟨s', h, hch, -⟩ := processReverb_chan s x isLeft _ _
    (reverbChannel_reference s.reverbSize x (chan isLeft s) hc h8)
  exact ⟨s', h, hch⟩

/-- Witness of C17: the input `1` on the left channel of the constructor's state. -/
theorem reverb_step_reference_witness :
    (chan true constructed).ok ∧ (chan true constructed).combBuffers.length = 8
      ∧ ∃ s', processReverb constructed 1 true
          = some (s', (schroederStep constructed.reverbSize 1 (chan true constructed)).2)
        ∧ chan true s' = (schroederStep constructed.reverbSize 1 (chan true constructed)).1 :=
  ⟨ready_constructed.2.2.2.2.1, rfl,
    reverb_step_reference constructed 1 true ready_constructed.2.2.2.2.1 rfl⟩

/-! ## The shimmer pitch is not read -/

theorem processFrame_pitch_some (s : State) (v : ℚ) (d : Int) (xL xR : ℚ)
    (r : State × ℚ × ℚ) (h : processFrame s d xL xR = some r) :
    processFrame (setParameter s 6 v) d xL xR = some (setParameter r.1 6 v, r.2) := by
  obtain ⟨dlL, dlR, shL, shR, yL, yR, cL, cR, h1, h2, h3, h4, h5, h6, h7, rfl⟩ :=
    processFrame_inv s d xL xR r h
  exact processFrame_eq (setParameter s 6 v) d xL xR dlL dlR shL shR yL yR cL cR h1 h2 h3 h4 h5
    h6 h7

theorem setParameter_pitch_undo (s : State) (v : ℚ) :
    setParameter (setParameter s 6 v) 6 s.shimmerPitch = s := rfl

theorem processFrame_pitch (s : State) (v : ℚ) (d : Int) (xL xR : ℚ) :
    processFrame (setParameter s 6 v) d xL xR
      = (processFrame s d xL xR).map (fun r => (setParameter r.1 6 v, r.2)) := by
  cases h : processFrame s d xL xR with
  | some r => exact processFrame_pitch_some s v d xL xR r h
  | none =>
    cases h' : processFrame (setParameter s 6 v) d xL xR with
    | none => rfl
    | some r' =>
      have := processFrame_pitch_some (setParameter s 6 v) s.shimmerPitch d xL xR r' h'
      rw [setParameter_pitch_undo, h] at this
      exact absurd this (by simp)

theorem processLoop_pitch (s : State) (v : ℚ) (d : Int) (inL inR : Nat → ℚ) (n : Nat) :
    processLoop d inL inR (setParameter s 6 v) n
      = (processLoop d inL inR s n).map (withPitch v) := by
  induction n with
  | zero => rfl
  | succ n ih =>
    simp only [processLoop, ih]
    cases processLoop d inL inR s n with
    | none => rfl
    | some r1 =>
      obtain ⟨s1, oL, oR⟩ := r1
      simp only [Option.map_some', withPitch, processFrame_pitch]
      cases processFrame s1 d (inL n) (inR n) with
      | none => rfl
      | some r2 => rfl

/-- C18. The shimmer-pitch parameter is stored but never consulted: for every state `s`
and value `v` for address 6, `process` on the state with `v` stored at address 6 faults
exactly when it faults on `s`, and otherwise produces the same outputs on both channels
and the same final state (all buffers, cursors and other parameters) except that
address 6 holds `v`; `getParameter(6)` returns the stored value before and after. -/
theorem shimmer_pitch_unused (s : State) (v : ℚ) (inL inR : Nat → ℚ) (frames : Nat) :
    process (setParameter s 6 v) inL inR frames
        = (process s inL inR frames).map (withPitch v)
      ∧ getParameter (setParameter s 6 v) 6 = v
      ∧ ∀ r, process (setParameter s 6 v) inL inR frames = some r → getParameter r.1 6 = v := by
  have hmain : process (setParameter s 6 v) inL inR frames
      = (process s inL inR frames).map (withPitch v) := by
    unfold process
    show (match delayInSamples s with
      | none => none
      | some d => processLoop d inL inR (setParameter s 6 v) frames) = _
    cases delayInSamples s with
    | none => rfl
    | some d => exact processLoop_pitch s v d inL inR frames
  refine ⟨hmain, rfl, ?_⟩
  intro r hr
  rw [hmain] at hr
  cases hp : process s inL inR frames with
  | none => rw [hp] at hr; exact absurd hr (by simp)
  | some r0 =>
    rw [hp, Option.map_some', Option.some.injEq] at hr
    rw [← hr]
    rfl

/-! ## Splitting a block -/

theorem delayInSamples_frameState (s : State) (cL cR : Channel) (wL wR : ℚ) :
    delayInSamples (frameState s cL cR wL wR) = delayInSamples s := by
  simp only [delayInSamples, frameState, List.length_set]

theorem processLoop_delayInSamples (d : Int) (inL inR : Nat → ℚ) (s : State) (n : Nat) :
    ∀ r, processLoop d inL inR s n = some r → delayInSamples r.1 = delayInSamples s := by
  induction n with
  | zero =>
    intro r h
    simp only [processLoop, Option.some.injEq] at h
    subst h
    rfl
  | succ n ih =>
    intro r h
    simp only [processLoop] at h
    cases h1 : processLoop d inL inR s n with
    | none => rw [h1] at h; exact absurd h (by simp)
    | some r1 =>
      obtain ⟨s1, oL, oR⟩ := r1
      rw [h1] at h
      simp only [] at h
      cases h2 : processFrame s1 d (inL n) (inR n) with
      | none => rw [h2] at h; exact absurd h (by simp)
      | some r2 =>
        obtain ⟨s2, a, b⟩ := r2
        rw [h2] at h
        simp only [Option.some.injEq] at h
        subst h
        obtain ⟨dlL, dlR, shL, shR, yL, yR, cL, cR, -, -, -, -, -, -, -, he⟩ :=
          processFrame_inv s1 d (inL n) (inR n) _ h2
        simp only [Prod.mk.injEq] at he
        rw [he.1, delayInSamples_frameState]
        exact ih _ h1

theorem processLoop_add (d : Int) (inL inR : Nat → ℚ) (s : State) (n m : Nat) :
    processLoop d inL inR s (n + m)
      = match processLoop d inL inR s n with
        | none => none
        | some (s1, outL1, outR1) =>
          match processLoop d (shiftInput n inL) (shiftInput n inR) s1 m with
          | none => none
          | some (s2, outL2, outR2) => some (s2, outL1 ++ outL2, outR1 ++ outR2) := by
  induction m with
  | zero =>
    cases h : processLoop d inL inR s n with
    | none => simp only [Nat.add_zero, h]
    | some r =>
      obtain ⟨s1, oL, oR⟩ := r
      simp only [Nat.add_zero, h, processLoop, List.append_nil]
  | succ m ih =>
    rw [← Nat.add_assoc, processLoop, ih]
    cases h : processLoop d inL inR s n with
    | none => rfl
    | some r =>
      obtain ⟨s1, oL, oR⟩ := r
      simp only [processLoop]
      cases h1 : processLoop d (shiftInput n inL) (shiftInput n inR) s1 m with
      | none => rfl
      | some r1 =>
        obtain ⟨s2, pL, pR⟩ := r1
        simp only [shiftInput]
        cases h2 : processFrame s2 d (inL (n + m)) (inR (n + m)) with
        | none => rfl
        | some r2 =>
          obtain ⟨s3, a, b⟩ := r2
          simp only [List.append_assoc]

/-- C19. For every engine state and inputs of `n + m` frames, one call of `process` on
all `n + m` frames gives the same result as a call on the first `n` frames followed by
a call on the remaining `m` frames: the same outputs and the same final state, and a
fault in one exactly when there is a fault in the other. -/
theorem block_splitting (s : State) (inL inR : Nat → ℚ) (n m : Nat) :
    process s inL inR (n + m) = processSplit s inL inR n m := by
  unfold processSplit process
  cases hd : delayInSamples s with
  | none => rfl
  | some d =>
    simp only []
    rw [processLoop_add]
    cases h : processLoop d inL inR s n with
    | none => rfl
    | some r =>
      obtain ⟨s1, oL, oR⟩ := r
      have hd1 : delayInSamples s1 = some d := by
        rw [processLoop_delayInSamples d inL inR s n _ h, hd]
      cases h2 : processLoop d (shiftInput n inL) (shiftInput n inR) s1 m with
      | none => simp only [hd1, h2]
      | some r2 => simp only [hd1, h2]

/-! ## Re-initialisation at a lower rate -/

theorem process_one_inv (s : State) (inL inR : Nat → ℚ) (r : State × List ℚ × List ℚ)
    (h : process s inL inR 1 = some r) :
    ∃ d r1, delayInSamples s = some d ∧ processFrame s d (inL 0) (inR 0) = some r1 := by
  unfold process at h
  cases hd : delayInSamples s with
  | none => rw [hd] at h; exact absurd h (by simp)
  | some d =>
    rw [hd] at h
    simp only [processLoop] at h
    cases hf : processFrame s d (inL 0) (inR 0) with
    | none => rw [hf] at h; exact absurd h (by simp)
    | some r1 => exact ⟨d, r1, rfl, hf⟩

/-- A state with a left comb cursor outside its buffer faults on the next frame. -/
theorem process_none_of_cursor (s : State) (inL inR : Nat → ℚ)
    (h : cursorsOK s.combBuffersL s.combPosL = false) : process s inL inR 1 = none := by
  cases hp : process s inL inR 1 with
  | none => rfl
  | some r =>
    obtain ⟨d, r1, -, hf⟩ := process_one_inv s inL inR r hp
    obtain ⟨dlL, dlR, shL, shR, yL, yR, cL, cR, -, -, -, h4, -⟩ :=
      processFrame_inv s d (inL 0) (inR 0) r1 hf
    obtain ⟨⟨-, hc, -⟩, -⟩ := reverbChannel_inv _ _ _ _ _ h4
    have hc' : cursorsOK s.combBuffersL s.combPosL = true := hc
    rw [h] at hc'
    exact absurd hc' (by simp)

/-- C20 fails on the code: from the constructor's state, 800 frames of `process` put
every comb cursor at 800; `initialize(2, 22050)` then shortens the left comb buffers to
778, 808, 745, ... samples (all derived lengths are at least 1) but keeps the cursors,
so `combPosL[0] = 800` is not less than the length 778 of its buffer and the next call
of `process` faults in `processReverb`. -/
theorem reinitialize_leaves_cursor_out_of_range :
    ∃ s1 outL outR s2, process constructed ones ones 800 = some (s1, outL, outR)
      ∧ initializeKernel s1 2 22050 = some s2
      ∧ s2.combBuffersL.map List.length = [778, 808, 745, 711, 638, 678, 594, 558]
      ∧ s2.combBuffersR.map List.length = [801, 831, 768, 734, 661, 701, 617, 581]
      ∧ s2.allpassBuffersL.map List.length = [112, 278, 220, 170]
      ∧ s2.allpassBuffersR.map List.length = [135, 301, 243, 193]
      ∧ s2.delayBufferL.length = 44100 ∧ s2.writePos = 0
      ∧ s2.combPosL = [800, 800, 800, 800, 800, 800, 800, 800]
      ∧ cursorsOK s2.combBuffersL s2.combPosL = false
      ∧ ∀ inL inR : Nat → ℚ, process s2 inL inR 1 = none := by
  have hD : delayInSamples constructed = some ((16537 : Nat) : Int) :=
    delayInSamples_constructed constructed constructed_delayBufferL_length (by decide!)
  obtain ⟨s1, outL, outR, hloop, -, -, -, -, -, -, q1, -⟩ :=
    processLoop_cursors constructed 16537 ones ones ready_constructed
      (by rw [constructed_delayBufferL_length]; decide) 800
  have hq1 : s1.combPosL = [800, 800, 800, 800, 800, 800, 800, 800] := by
    rw [q1]; decide!
  obtain ⟨s2, hinit, d1, -, a3, a4, a5, a6, p1, -, -, -, hw, -⟩ :=
    initialize_lengths s1 2 22050 (by norm_num) (by norm_num)
  have l1 : s2.combBuffersL.map List.length = [778, 808, 745, 711, 638, 678, 594, 558] := by
    rw [a3]; decide!
  have hp : s2.combPosL = [800, 800, 800, 800, 800, 800, 800, 800] := by
    rw [p1, hq1]; decide
  have hbad : cursorsOK s2.combBuffersL s2.combPosL = false := by
    have hshape : s2.combBuffersL.map List.length
        = ([778, 808, 745, 711, 638, 678, 594, 558].map
            (fun n => List.replicate n (0 : ℚ))).map List.length := by
      rw [l1]; decide!
    rw [cursorsOK_shape _ _ _ hshape, hp]
    decide!
  refine ⟨s1, outL, outR, s2, by simp only [process, hD, hloop], hinit, l1, ?_, ?_, ?_, ?_, hw,
    hp, hbad, fun inL inR => process_none_of_cursor s2 inL inR hbad⟩
  · rw [a4]; decide!
  · rw [a5]; decide!
  · rw [a6]; decide!
  · rw [d1]; decide!

end EdgeDelay
